import Mathlib

/-! Buffalo `route_info.go`: route descriptors, path helpers and request dispatch.

A shallow embedding of `src/route_info.go`.

* Go strings are byte sequences (`GoString`); literals are written `ascii "..."`.
* A Go `map[string]interface{}` is given by one enumeration of its entries, a list
  of key/value pairs with pairwise distinct keys (`BagOK`); `range` visits the
  entries in the order of that list, so a statement over every list covers every
  iteration order.
* The values of a bag are of an arbitrary type `V`, printed by `fmtv : V → GoString`
  (the `fmt.Sprintf("%v", v)` of the source).
-/

namespace Buffalo

/-! ## Strings -/

/-- One byte of a Go string. -/
abbrev Byte := Fin 256

/-- Go `string`: a sequence of bytes. -/
abbrev GoString := List Byte

/-- Bytes of an ASCII literal. -/
def ascii (s : String) : GoString :=
  s.toList.map (fun c => Fin.ofNat (c.toNat % 256))

/-- Go `strings.HasPrefix(s, pre)`. -/
def HasPrefix : GoString → GoString → Bool
  | _, [] => true
  | [], _ :: _ => false
  | c :: s, d :: pre => c == d && HasPrefix s pre

/-- Go `strings.Contains(s, substr)`: `substr` starts at some offset of `s`. -/
def Contains : GoString → GoString → Bool
  | [], substr => HasPrefix [] substr
  | c :: s, substr => HasPrefix (c :: s) substr || Contains s substr

/-- Go `strings.HasSuffix(s, suf)`. -/
def HasSuffix (s suf : GoString) : Bool :=
  HasPrefix s.reverse suf.reverse

/-- Go `a < b` on strings: byte-wise lexicographic order. -/
def strLess : GoString → GoString → Bool
  | _, [] => false
  | [], _ :: _ => true
  | a :: as, b :: bs => if a < b then true else if b < a then false else strLess as bs

/-- Go `sort.Strings`: the keys in increasing order of `strLess`. -/
def sortStrings (keys : List GoString) : List GoString :=
  keys.insertionSort (fun a b => strLess b a = false)

/-! ## `net/url` query escaping -/

/-- Table `upperhex` of `net/url`. -/
def upperhex (n : Nat) : Byte :=
  if n < 10 then Fin.ofNat (48 + n) else Fin.ofNat (55 + n)

/-- Bytes `net/url` leaves alone in a query component: letters, digits and `-_.~`. -/
def unreserved (c : Byte) : Bool :=
  (97 ≤ c.val && c.val ≤ 122) || (65 ≤ c.val && c.val ≤ 90) || (48 ≤ c.val && c.val ≤ 57)
    || c.val == 45 || c.val == 95 || c.val == 46 || c.val == 126

/-- One byte under `url.QueryEscape`: space becomes `+`, an unreserved byte is
kept, any other byte becomes `%XX` in upper-case hexadecimal. -/
def escapeByte (c : Byte) : GoString :=
  if c.val == 32 then [43]
  else if unreserved c then [c]
  else [37, upperhex (c.val / 16), upperhex (c.val % 16)]

/-- Go `url.QueryEscape`. -/
def QueryEscape (s : GoString) : GoString :=
  s.flatMap escapeByte

/-! ## Leftover parameters (`addExtraParamsTo`) -/

/-- Go `map[string]string` as an association list, latest binding first. -/
abbrev StrMap := List (GoString × GoString)

/-- Go `m[k]` on a `map[string]string`: the bound value, or the empty string. -/
def StrMap.get (m : StrMap) (k : GoString) : GoString :=
  match m with
  | [] => []
  | (k1, v) :: rest => if k1 = k then v else StrMap.get rest k

/-- Go `m[k] = v`. -/
def StrMap.set (m : StrMap) (k v : GoString) : StrMap :=
  (k, v) :: m

/-- First loop of `addExtraParamsTo` (lines 124-131): visits the entries of the
bag in enumeration order, skips the ones whose printed value occurs in `path`,
and records the others in `keys` and `pendingParams`. -/
def collectPending {V : Type} (fmtv : V → GoString) (path : GoString) :
    List (GoString × V) → List GoString × StrMap → List GoString × StrMap
  | [], acc => acc
  | (k, v) :: rest, (keys, pendingParams) =>
    if Contains path (fmtv v) then
      collectPending fmtv path rest (keys, pendingParams)
    else
      collectPending fmtv path rest (keys ++ [k], pendingParams.set k (fmtv v))

/-- Second loop of `addExtraParamsTo` (lines 147-155): appends one
`key=value` pair per key, prefixed with `&` from the second one on. -/
def appendPairs (pendingParams : StrMap) : Nat → List GoString → GoString → GoString
  | _, [], path => path
  | index, k :: ks, path =>
    let format : GoString := if index > 0 then ascii "&" else []
    appendPairs pendingParams (index + 1) ks
      (path ++ (format ++ QueryEscape k ++ ascii "=" ++ QueryEscape (pendingParams.get k)))

/-- Go `addExtraParamsTo(path, opts)`, `opts` given by an enumeration of its entries. -/
def addExtraParamsTo {V : Type} (fmtv : V → GoString) (path : GoString)
    (opts : List (GoString × V)) : GoString :=
  let (keys, pendingParams) := collectPending fmtv path opts ([], [])
  if keys.length = 0 then path
  else
    let path1 :=
      if !Contains path (ascii "?") then path ++ ascii "?"
      else if !HasSuffix path (ascii "?") then path ++ ascii "&"
      else path
    appendPairs pendingParams 0 (sortStrings keys) path1

/-- The entries of a bag have pairwise distinct keys (it enumerates a Go map). -/
abbrev BagOK {V : Type} (opts : List (GoString × V)) : Prop :=
  (opts.map Prod.fst).Nodup

/-! ### Vocabulary of the statements about `addExtraParamsTo` -/

/-- Leftover entries of a bag: those whose printed value is not a substring of `path`. -/
def leftover {V : Type} (fmtv : V → GoString) (path : GoString)
    (opts : List (GoString × V)) : List (GoString × V) :=
  opts.filter (fun kv => !Contains path (fmtv kv.2))

/-- Text of one query pair: escaped key, `=`, escaped printed value. -/
def pairText {V : Type} (fmtv : V → GoString) (kv : GoString × V) : GoString :=
  QueryEscape kv.1 ++ ascii "=" ++ QueryEscape (fmtv kv.2)

/-- Separator put between the path and the appended pairs: `?` when the path has
no `?`, `&` when it has one and does not end with it, nothing when it ends with `?`. -/
def querySep (path : GoString) : GoString :=
  if ¬ (ascii "?" <:+: path) then ascii "?"
  else if ¬ (ascii "?" <:+ path) then ascii "&"
  else []

/-- Entries in increasing order of their keys. -/
def sortEntries {V : Type} (es : List (GoString × V)) : List (GoString × V) :=
  es.insertionSort (fun a b => strLess b.1 a.1 = false)

/-! ## Route descriptors and the registry (`Alias`, `Name`) -/

/-- Address of a `RouteInfo` object (`*RouteInfo`). -/
abbrev Ptr := Nat

/-- Go `RouteInfo`. `MuxRoute` and `Handler` are kept by identity; the `App`
back-reference is the `App` value the operations below run on. -/
structure RouteInfo where
  Method : GoString
  Path : GoString
  HandlerName : GoString
  PathName : GoString
  Aliases : List GoString
  MuxRoute : Nat
  Handler : Nat
  deriving DecidableEq

/-- One call `router.Handle(pattern, target).Methods(method)` received by the matcher. -/
structure Registration where
  pattern : GoString
  target : Ptr
  method : GoString
  deriving DecidableEq

/-- The part of `App` that `Alias` and `Name` reach: the `RouteInfo` objects by
address, the slice returned by `Routes()` (shared, not copied), and the
registrations received by `router`, oldest first. -/
structure App where
  heap : Ptr → RouteInfo
  routes : List Ptr
  router : List Registration

/-- Go `ri.Alias(aliases...)` (lines 40-46). -/
def Alias (ri : Ptr) (aliases : List GoString) (a : App) : App × Ptr :=
  let obj : RouteInfo := a.heap ri
  let obj1 : RouteInfo := { obj with Aliases := obj.Aliases ++ aliases }
  let a1 : App := { a with heap := Function.update a.heap ri obj1 }
  let a2 : App := aliases.foldl
    (fun st al => { st with router := st.router ++ [⟨al, ri, (st.heap ri).Method⟩] }) a1
  (a2, ri)

/-- Upper-case ASCII letter. -/
def isUpper (c : Byte) : Bool :=
  65 ≤ c.val && c.val ≤ 90

/-- Lower-case form of one byte. -/
def toLower (c : Byte) : Byte :=
  if isUpper c then c + 32 else c

/-- Modelled from the spec: `inflect.CamelizeDownFirst` of the package
`github.com/markbates/inflect`, whose source is not part of `src/`; the spec gives
it as "lower-case the first character". -/
def CamelizeDownFirst : GoString → GoString
  | [] => []
  | c :: s => toLower c :: s

/-- The scan of `Name` (lines 50-56): index of the first entry of `routes`, from
`index` on, with the `Path` and `Method` of `ri`; `none` stands for `-1`. -/
def findRoute (heap : Ptr → RouteInfo) (ri : Ptr) : List Ptr → Nat → Option Nat
  | [], _ => none
  | route :: rest, index =>
    if (heap route).Path = (heap ri).Path ∧ (heap route).Method = (heap ri).Method then
      some index
    else findRoute heap ri rest (index + 1)

/-- Go `ri.Name(name)` (lines 49-70). -/
def Name (ri : Ptr) (name : GoString) (a : App) : App × Ptr :=
  let routeIndex := findRoute a.heap ri a.routes 0
  let name1 := CamelizeDownFirst name
  let name2 := if !HasSuffix name1 (ascii "Path") then name1 ++ ascii "Path" else name1
  let obj : RouteInfo := a.heap ri
  let obj1 : RouteInfo := { obj with PathName := name2 }
  let a1 : App := { a with heap := Function.update a.heap ri obj1 }
  match routeIndex with
  | some i => ({ a1 with routes := a1.routes.set i ri }, ri)
  | none => (a1, ri)

/-! ## Path helper (`BuildPathHelper`) -/

/-- Go `url.URL`, of which the helper reads `Path` only. -/
structure URL where
  Path : GoString
  deriving DecidableEq

/-- The loop of lines 76-80: keys and printed values, alternating, in enumeration order. -/
def flattenPairs {V : Type} (fmtv : V → GoString) : List (GoString × V) → List GoString
  | [] => []
  | (k, v) :: rest => k :: fmtv v :: flattenPairs fmtv rest

/-- The function returned by `ri.BuildPathHelper()` (lines 73-92), applied to `opts`.
`muxURL r pairs` is `r.URL(pairs...)` of the matcher (gorilla/mux), a collaborator
outside `src/`; `ri` is the descriptor `cRoute` points to when the helper runs.
The result is the pair `(template.HTML, error)`, the error given by its message. -/
def BuildPathHelper {V : Type} (muxURL : Nat → List GoString → Except GoString URL)
    (fmtv : V → GoString) (ri : RouteInfo) (opts : List (GoString × V)) :
    GoString × Option GoString :=
  let pairs := flattenPairs fmtv opts
  match muxURL ri.MuxRoute pairs with
  | .error _ => ([], some (ascii "missing parameters for " ++ ri.Path))
  | .ok url =>
    let result := url.Path
    let result := addExtraParamsTo fmtv result opts
    (result, none)

/-! ## Request dispatch (`ServeHTTP`) -/

/-- Go `error` values as the dispatcher sees them: an error that wraps a cause
(it has a `Cause()` method), or a root that is an `HTTPError` or is not. Each
carries the text its `Error()` method returns. -/
inductive GoError where
  | plain (msg : GoString)
  | HTTPError (Status : Int) (msg : GoString)
  | causer (msg : GoString) (cause : GoError)
  deriving DecidableEq

/-- Go `err.Error()`. -/
def GoError.Error : GoError → GoString
  | .plain msg => msg
  | .HTTPError _ msg => msg
  | .causer msg _ => msg

/-- Go `errors.Cause(err)`: follows `Cause()` down to the first error without one. -/
def Cause : GoError → GoError
  | .causer _ cause => Cause cause
  | err => err

/-- Calls issued by `ServeHTTP` itself, `H` being the identities of error handlers. -/
inductive Call (H : Type) where
  | newContext
  | handler
  | flashPersist
  | errorHandlersGet (status : Int)
  | errorHandler (eh : H) (status : Int) (err : GoError)
  | loggerError (err : GoError)
  | WriteHeader (status : Int)
  | Write (body : GoString)
  deriving DecidableEq

/-- Collaborators of `ServeHTTP`, all outside `src/`, acting on a world `W` (the
context with its response writer, session and flash, and the logger):
`newContext` is `a.newContext(ri, res, req)`, `handler` is
`a.Middleware.handler(ri)(c)`, `persist` is `c.Flash().persist(c.Session())`,
`Get` is `a.ErrorHandlers.Get`, `run eh` is the call `eh(status, err, c)`,
`loggerError` is `a.Logger.Error`, `WriteHeader` and `Write` are those of
`c.Response()`. -/
structure ServeEnv (W H : Type) where
  newContext : W → W
  handler : W → W × Option GoError
  persist : W → W
  Get : Int → H
  run : H → Int → GoError → W → W × Option GoError
  loggerError : GoError → W → W
  WriteHeader : Int → W → W
  Write : GoString → W → W

/-- Lines 103-109 of `ServeHTTP`: 500, or the `Status` of the root cause when
that is an `HTTPError`. -/
def resolveStatus (err : GoError) : Int :=
  match Cause err with
  | .HTTPError Status _ => Status
  | _ => 500

/-- Go `ri.ServeHTTP(res, req)` (lines 94-119): the world it leaves and the calls
it issued, in order. -/
def ServeHTTP {W H : Type} (a : ServeEnv W H) (w : W) : W × List (Call H) :=
  let c := a.newContext w
  match a.handler c with
  | (w1, none) => (w1, [.newContext, .handler])
  | (w1, some err) =>
    let w2 := a.persist w1
    let status := resolveStatus err
    let eh := a.Get status
    match a.run eh status err w2 with
    | (w3, none) =>
      (w3, [.newContext, .handler, .flashPersist, .errorHandlersGet status,
            .errorHandler eh status err])
    | (w3, some err1) =>
      let w4 := a.loggerError err1 w3
      let w5 := a.WriteHeader 500 w4
      let w6 := a.Write err1.Error w5
      (w6, [.newContext, .handler, .flashPersist, .errorHandlersGet status,
            .errorHandler eh status err, .loggerError err1, .WriteHeader 500,
            .Write err1.Error])

/-! ## Vocabulary and sample collaborators for the statements -/

/-- Keys of an alternating key/value sequence: its entries at even positions. -/
def pairKeys : List GoString → List GoString
  | [] => []
  | [k] => [k]
  | k :: _ :: rest => k :: pairKeys rest

/-- Value that follows `key` in an alternating key/value sequence. -/
def pairValue (key : GoString) : List GoString → Option GoString
  | k :: v :: rest => if k = key then some v else pairValue key rest
  | _ => none

/-- A sample matcher for the pattern `/widgets/{id}`: renders `/widgets/` followed
by the value given for `id`, and fails when the pairs give none. -/
def widgetsURL (_ : Nat) (pairs : List GoString) : Except GoString URL :=
  match pairValue (ascii "id") pairs with
  | some v => .ok ⟨ascii "/widgets/" ++ v⟩
  | none => .error (ascii "mux: missing route variable")

/-- A sample descriptor: `GET /widgets/{id}`. -/
def widgetRoute : RouteInfo :=
  { Method := ascii "GET", Path := ascii "/widgets/{id}", HandlerName := ascii "WidgetsShow",
    PathName := ascii "widgetPath", Aliases := [], MuxRoute := 0, Handler := 0 }

/-- A sample application: `widgetRoute` at address 0, registered in slot 0. -/
def widgetApp : App :=
  { heap := fun _ => widgetRoute, routes := [0], router := [] }

/-- A sample world for `ServeHTTP`: what a recording response writer, the flash
store and the logger hold. -/
structure Recorder where
  Code : Int
  Body : GoString
  persisted : Bool
  logged : List GoError
  deriving DecidableEq

/-- A sample environment on `Recorder`: the handler and every error handler write
nothing and return `handlerResult` and `ehResult`; an error handler is identified
by the status it was looked up with. -/
def recorderEnv (handlerResult ehResult : Option GoError) : ServeEnv Recorder Int :=
  { newContext := fun w => w
    handler := fun w => (w, handlerResult)
    persist := fun w => { w with persisted := true }
    Get := fun status => status
    run := fun _ _ _ w => (w, ehResult)
    loggerError := fun err w => { w with logged := w.logged ++ [err] }
    WriteHeader := fun status w => { w with Code := status }
    Write := fun body w => { w with Body := w.Body ++ body } }

/-- A fresh `Recorder`: status 200, empty body. -/
def freshRecorder : Recorder :=
  { Code := 200, Body := [], persisted := false, logged := [] }

/-- A sample handler error: a wrapping error whose root cause is an `HTTPError`
with status 404. -/
def notFoundErr : GoError :=
  .causer (ascii "show widget: not found") (.HTTPError 404 (ascii "not found"))

/-- A sample error-handler failure. -/
def renderErr : GoError :=
  .plain (ascii "render failed")

/-- The `PathName` of the descriptor at `ri` after `Name(name)`. -/
def pathNameAfter (ri : Ptr) (name : GoString) (a : App) : GoString :=
  ((Name ri name a).1.heap ri).PathName

/-! ## Sample bag values and query decoding -/

/-- Sample values of a bag: strings and integers. -/
inductive Value where
  | str (s : GoString)
  | int (n : Int)
  deriving DecidableEq

/-- Decimal digits of a natural number, as `fmt` prints them. -/
def natDecimal (n : Nat) : GoString :=
  (Nat.toDigits 10 n).map (fun c => Fin.ofNat (c.toNat % 256))

/-- Go `fmt.Sprintf("%v", v)` on a string or an integer. -/
def Value.format : Value → GoString
  | .str s => s
  | .int (Int.ofNat n) => natDecimal n
  | .int (Int.negSucc n) => ascii "-" ++ natDecimal (n + 1)

/-- A sample matcher for the pattern `/users/{id}`. -/
def usersURL (_ : Nat) (pairs : List GoString) : Except GoString URL :=
  match pairValue (ascii "id") pairs with
  | some v => .ok ⟨ascii "/users/" ++ v⟩
  | none => .error (ascii "mux: missing route variable")

/-- A sample descriptor: `GET /users/{id}`. -/
def usersRoute : RouteInfo :=
  { Method := ascii "GET", Path := ascii "/users/{id}", HandlerName := ascii "UsersShow",
    PathName := ascii "userPath", Aliases := [], MuxRoute := 1, Handler := 1 }

/-- Go `strings.Split(s, sep)` for a one-byte separator: the pieces between the
occurrences of `sep`, at least one. -/
def splitOn (sep : Byte) : GoString → List GoString
  | [] => [[]]
  | c :: s =>
    if c = sep then [] :: splitOn sep s
    else
      match splitOn sep s with
      | [] => [[c]]
      | piece :: pieces => (c :: piece) :: pieces

/-- Go `strings.Cut(s, sep)` for a one-byte separator, without the found flag:
what precedes and what follows the first `sep`; all of `s` and nothing when
there is none. -/
def cutFirst (sep : Byte) : GoString → GoString × GoString
  | [] => ([], [])
  | c :: s =>
    if c = sep then ([], s)
    else ((c :: (cutFirst sep s).1), (cutFirst sep s).2)

/-- Function `unhex` of `net/url`: the value of a hexadecimal digit. -/
def unhex (c : Byte) : Option Nat :=
  if 48 ≤ c.val ∧ c.val ≤ 57 then some (c.val - 48)
  else if 97 ≤ c.val ∧ c.val ≤ 102 then some (c.val - 97 + 10)
  else if 65 ≤ c.val ∧ c.val ≤ 70 then some (c.val - 65 + 10)
  else none

/-- Go `url.QueryUnescape`: `%XX` becomes the byte `XX`, `+` becomes a space, any
other byte is kept; `none` stands for the error on a malformed `%`. -/
def QueryUnescape : GoString → Option GoString
  | [] => some []
  | c :: rest =>
    if c.val = 37 then
      match rest with
      | h :: l :: rest2 =>
        match unhex h, unhex l with
        | some hi, some lo => (QueryUnescape rest2).map (fun r => Fin.ofNat (16 * hi + lo) :: r)
        | _, _ => none
      | _ => none
    else if c.val = 43 then (QueryUnescape rest).map (fun r => 32 :: r)
    else (QueryUnescape rest).map (fun r => c :: r)

/-- One piece `key=value` of a query string, both halves unescaped. -/
def decodePair (piece : GoString) : Option (GoString × GoString) :=
  match QueryUnescape (cutFirst 61 piece).1, QueryUnescape (cutFirst 61 piece).2 with
  | some k, some v => some (k, v)
  | _, _ => none

/-- Decoding of a query string: split on `&`, split each piece on its first `=`,
unescape both halves. -/
def decodeQuery (text : GoString) : Option (List (GoString × GoString)) :=
  (splitOn 38 text).mapM decodePair

/-! ## Vocabulary on the calls of `ServeHTTP` -/

/-- The call is the invocation of the wrapped handler. -/
def Call.isHandler {H : Type} : Call H → Bool
  | .handler => true
  | _ => false

/-- The call is a lookup in the error-handler table. -/
def Call.isGet {H : Type} : Call H → Bool
  | .errorHandlersGet _ => true
  | _ => false

/-- The call is the invocation of an error handler. -/
def Call.isErrorHandler {H : Type} : Call H → Bool
  | .errorHandler _ _ _ => true
  | _ => false

/-- The call is a `WriteHeader` on the response. -/
def Call.isWriteHeader {H : Type} : Call H → Bool
  | .WriteHeader _ => true
  | _ => false

/-- The call is a `Write` on the response. -/
def Call.isWrite {H : Type} : Call H → Bool
  | .Write _ => true
  | _ => false

/-! ## Vocabulary on the registry -/

/-- The test of line 52: the descriptor at `p` has the `Path` and the `Method` of
the descriptor at `ri`. -/
abbrev sameRoute (heap : Ptr → RouteInfo) (ri p : Ptr) : Prop :=
  (heap p).Path = (heap ri).Path ∧ (heap p).Method = (heap ri).Method

/-- The `PathName`s of the registry, slot by slot. -/
def registryNames (a : App) : List GoString :=
  a.routes.map (fun p => (a.heap p).PathName)

/-- A sample application with two descriptors: `widgetRoute` at address 0 and
`usersRoute` at address 1, registered in this order. -/
def twoRouteApp : App :=
  { heap := fun p => if p = 0 then widgetRoute else usersRoute, routes := [0, 1], router := [] }

/-! ## The response writer and the record of the collaborators -/

/-- State of a Go `http.ResponseWriter` (`net/http`), the object behind
`c.Response()`: whether the header has been sent, the status sent with it (200
until then) and the body written so far. -/
structure Response where
  wroteHeader : Bool
  Code : Int
  Body : GoString
  deriving DecidableEq

/-- Go `ResponseWriter.WriteHeader(status)`: sends the header with `status`; once
the header has been sent a further call changes nothing. -/
def Response.WriteHeader (status : Int) (r : Response) : Response :=
  if r.wroteHeader then r else { r with wroteHeader := true, Code := status }

/-- Go `ResponseWriter.Write(body)`: sends the header with status 200 when none
has been sent, then appends `body` to what was written. -/
def Response.Write (body : GoString) (r : Response) : Response :=
  let r1 := if r.wroteHeader then r else r.WriteHeader 200
  { r1 with Body := r1.Body ++ body }

/-- The environment `a` writes its response as `net/http` does, `res` being the
response writer held in the world: `WriteHeader` and `Write` of `c.Response()`
are those of the writer, and the logger leaves the writer alone. Nothing is
asked of the handlers. -/
def WritesResponse {W H : Type} (a : ServeEnv W H) (res : W → Response) : Prop :=
  (∀ status w, res (a.WriteHeader status w) = (res w).WriteHeader status) ∧
  (∀ body w, res (a.Write body w) = (res w).Write body) ∧
  (∀ err w, res (a.loggerError err w) = res w)

/-- A response writer nothing has been written to. -/
def freshResponse : Response :=
  { wroteHeader := false, Code := 200, Body := [] }

/-- A sample environment on a response writer and a log: the handler writes
nothing and fails with `notFoundErr`; every error handler first writes
`ehWrites` (a status and a body, when given) to the response and then fails with
`renderErr`. -/
def writerEnv (ehWrites : Option (Int × GoString)) : ServeEnv (Response × List GoError) Int :=
  { newContext := fun w => w
    handler := fun w => (w, some notFoundErr)
    persist := fun w => w
    Get := fun status => status
    run := fun _ _ _ w =>
      match ehWrites with
      | none => (w, some renderErr)
      | some (status, body) => (((w.1.WriteHeader status).Write body, w.2), some renderErr)
    loggerError := fun err w => (w.1, w.2 ++ [err])
    WriteHeader := fun status w => (w.1.WriteHeader status, w.2)
    Write := fun body w => (w.1.Write body, w.2) }

/-- The environment `a` with a record kept in the world: every collaborator that
acts on the world appends its own call to the record when it runs. The table
lookup `Get` only reads and keeps no record. -/
def recording {W H : Type} (a : ServeEnv W H) : ServeEnv (W × List (Call H)) H :=
  { newContext := fun s => (a.newContext s.1, s.2 ++ [Call.newContext])
    handler := fun s => (((a.handler s.1).1, s.2 ++ [Call.handler]), (a.handler s.1).2)
    persist := fun s => (a.persist s.1, s.2 ++ [Call.flashPersist])
    Get := a.Get
    run := fun eh status err s =>
      (((a.run eh status err s.1).1, s.2 ++ [Call.errorHandler eh status err]),
        (a.run eh status err s.1).2)
    loggerError := fun err s => (a.loggerError err s.1, s.2 ++ [Call.loggerError err])
    WriteHeader := fun status s => (a.WriteHeader status s.1, s.2 ++ [Call.WriteHeader status])
    Write := fun body s => (a.Write body s.1, s.2 ++ [Call.Write body]) }

/-! ## Lemmas on strings -/

theorem HasPrefix_iff (s pre : GoString) : HasPrefix s pre = true ↔ pre <+: s := by
  induction s generalizing pre with
  | nil => cases pre <;> simp [HasPrefix]
  | cons c s ih =>
    cases pre with
    | nil => simp [HasPrefix]
    | cons d pre =>
      rw [HasPrefix, Bool.and_eq_true, ih, List.cons_prefix_cons, beq_iff_eq]
      constructor
      · rintro ⟨h1, h2⟩; exact ⟨h1.symm, h2⟩
      · rintro ⟨h1, h2⟩; exact ⟨h1.symm, h2⟩

theorem Contains_iff (s substr : GoString) : Contains s substr = true ↔ substr <:+: s := by
  induction s with
  | nil => cases substr <;> simp [Contains, HasPrefix]
  | cons c s ih =>
    rw [Contains, Bool.or_eq_true, HasPrefix_iff, ih, List.infix_cons_iff]

theorem HasSuffix_iff (s suf : GoString) : HasSuffix s suf = true ↔ suf <:+ s := by
  rw [HasSuffix, HasPrefix_iff, List.reverse_prefix]

theorem strLess_iff_lex (a b : GoString) :
    strLess a b = true ↔ List.Lex (· < ·) a b := by
  induction a generalizing b with
  | nil =>
    cases b with
    | nil => simp [strLess]
    | cons y b => simp only [strLess, true_iff]; exact List.Lex.nil
  | cons x a ih =>
    cases b with
    | nil => simp [strLess]
    | cons y b =>
      rw [strLess]
      by_cases h1 : x < y
      · simp only [h1, if_true, true_iff]
        exact List.Lex.rel h1
      · by_cases h2 : y < x
        · simp only [h1, h2, if_false, if_true]
          constructor
          · intro h; cases h
          · intro h
            cases h with
            | cons h => exact absurd h2 (lt_irrefl _)
            | rel h => exact absurd h h1
        · have hxy : x = y := le_antisymm (not_lt.mp h2) (not_lt.mp h1)
          subst hxy
          simp only [h1, if_false, ih]
          constructor
          · intro h; exact List.Lex.cons h
          · intro h
            cases h with
            | cons h => exact h
            | rel h => exact absurd h h1

theorem strLess_irrefl (a : GoString) : strLess a a = false := by
  induction a with
  | nil => rfl
  | cons x a ih => simp [strLess, ih]

theorem strLess_trans {a b c : GoString} (h1 : strLess a b = true) (h2 : strLess b c = true) :
    strLess a c = true := by
  rw [strLess_iff_lex] at *
  exact IsTrans.trans _ _ _ h1 h2

theorem strLess_asymm {a b : GoString} (h : strLess a b = true) : strLess b a = false := by
  cases hba : strLess b a with
  | false => rfl
  | true =>
    have := strLess_trans h hba
    rw [strLess_irrefl] at this
    exact absurd this (by decide)

theorem strLess_connected {a b : GoString} (h : a ≠ b) :
    strLess a b = true ∨ strLess b a = true := by
  rw [strLess_iff_lex, strLess_iff_lex]
  rcases trichotomous_of (List.Lex (fun x1 x2 : Byte => x1 < x2)) a b with h1 | h1 | h1
  · exact Or.inl h1
  · exact absurd h1 h
  · exact Or.inr h1

theorem notLess_total (a b : GoString) : strLess b a = false ∨ strLess a b = false := by
  cases h : strLess b a with
  | false => exact Or.inl rfl
  | true => exact Or.inr (strLess_asymm h)

theorem notLess_trans {a b c : GoString} (h1 : strLess b a = false) (h2 : strLess c b = false) :
    strLess c a = false := by
  cases h : strLess c a with
  | false => rfl
  | true =>
    by_cases hab : a = b
    · subst hab; rw [h] at h2; exact absurd h2 (by decide)
    · rcases strLess_connected hab with h3 | h3
      · rw [strLess_trans h h3] at h2; exact absurd h2 (by decide)
      · rw [h3] at h1; exact absurd h1 (by decide)

theorem notLess_isTotal : IsTotal GoString (fun a b => strLess b a = false) :=
  ⟨notLess_total⟩

theorem notLess_isTrans : IsTrans GoString (fun a b => strLess b a = false) :=
  ⟨fun _ _ _ h1 h2 => notLess_trans h1 h2⟩

theorem notLessKey_isTotal {V : Type} :
    IsTotal (GoString × V) (fun a b => strLess b.1 a.1 = false) :=
  ⟨fun a b => notLess_total a.1 b.1⟩

theorem notLessKey_isTrans {V : Type} :
    IsTrans (GoString × V) (fun a b => strLess b.1 a.1 = false) :=
  ⟨fun _ _ _ h1 h2 => notLess_trans h1 h2⟩

/-! ## Lemmas on `addExtraParamsTo` -/

theorem sortEntries_perm {V : Type} (es : List (GoString × V)) : (sortEntries es).Perm es :=
  List.perm_insertionSort _ es

theorem sortEntries_keys {V : Type} (es : List (GoString × V)) :
    (sortEntries es).map Prod.fst = sortStrings (es.map Prod.fst) := by
  unfold sortEntries sortStrings
  exact List.map_insertionSort (fun a b : GoString × V => strLess b.1 a.1 = false)
    (fun a b : GoString => strLess b a = false) Prod.fst es (fun _ _ _ _ => Iff.rfl)

theorem sortEntries_ascending {V : Type} (es : List (GoString × V))
    (hnd : (es.map Prod.fst).Nodup) :
    ((sortEntries es).map Prod.fst).Pairwise (List.Lex (· < ·)) := by
  haveI := notLess_isTotal
  haveI := notLess_isTrans
  have hs : (sortStrings (es.map Prod.fst)).Sorted (fun a b => strLess b a = false) :=
    List.sorted_insertionSort _ _
  have hn : (sortStrings (es.map Prod.fst)).Nodup :=
    (List.perm_insertionSort _ _).nodup_iff.mpr hnd
  rw [sortEntries_keys]
  have hboth := List.Pairwise.and hs hn
  refine hboth.imp ?_
  intro a b hab
  rcases strLess_connected hab.2 with h | h
  · exact (strLess_iff_lex a b).mp h
  · rw [h] at hab; exact absurd hab.1 (by decide)

theorem collectPending_eq {V : Type} (fmtv : V → GoString) (path : GoString)
    (opts : List (GoString × V)) (keys : List GoString) (pp : StrMap) :
    collectPending fmtv path opts (keys, pp) =
      (keys ++ (leftover fmtv path opts).map Prod.fst,
       ((leftover fmtv path opts).map (fun kv => (kv.1, fmtv kv.2))).reverse ++ pp) := by
  induction opts generalizing keys pp with
  | nil => simp [collectPending, leftover]
  | cons kv rest ih =>
    obtain ⟨k, v⟩ := kv
    by_cases h : Contains path (fmtv v) = true
    · simp only [collectPending, h, if_true, ih, leftover, List.filter_cons, Bool.not_true]
      simp
    · simp only [collectPending, h, if_false, ih, leftover, List.filter_cons]
      simp [h, StrMap.set]

theorem StrMap.get_of_mem (m : StrMap) (hnd : (m.map Prod.fst).Nodup) (k v : GoString)
    (h : (k, v) ∈ m) : StrMap.get m k = v := by
  induction m with
  | nil => cases h
  | cons e rest ih =>
    obtain ⟨k1, v1⟩ := e
    rw [List.map_cons, List.nodup_cons] at hnd
    rcases List.mem_cons.mp h with h1 | h1
    · cases h1; simp [StrMap.get]
    · have hne : k1 ≠ k := by
        intro hk; subst hk
        exact hnd.1 (List.mem_map.mpr ⟨(k1, v), h1, rfl⟩)
      simp [StrMap.get, hne, ih hnd.2 h1]

theorem intercalate_cons_eq (sep x : GoString) (xs : List GoString) :
    List.intercalate sep (x :: xs) = x ++ (xs.map (fun y => sep ++ y)).flatten := by
  induction xs generalizing x with
  | nil => simp [List.intercalate]
  | cons y ys ih =>
    have h := ih y
    simp only [List.intercalate, List.intersperse, List.flatten_cons, List.map_cons] at h ⊢
    rw [h]; simp

theorem appendPairs_succ (pp : StrMap) (index : Nat) (ks : List GoString) (path : GoString) :
    appendPairs pp (index + 1) ks path =
      path ++ (ks.map (fun k => ascii "&" ++
        (QueryEscape k ++ ascii "=" ++ QueryEscape (pp.get k)))).flatten := by
  induction ks generalizing index path with
  | nil => simp [appendPairs]
  | cons k ks ih =>
    simp only [appendPairs, ih, List.map_cons, List.flatten_cons]
    simp

theorem appendPairs_zero (pp : StrMap) (ks : List GoString) (path : GoString) :
    appendPairs pp 0 ks path =
      path ++ List.intercalate (ascii "&")
        (ks.map (fun k => QueryEscape k ++ ascii "=" ++ QueryEscape (pp.get k))) := by
  cases ks with
  | nil => simp [appendPairs, List.intercalate]
  | cons k ks =>
    rw [List.map_cons, intercalate_cons_eq, appendPairs, appendPairs_succ]
    simp [Function.comp_def]

theorem leftover_keys_nodup {V : Type} (fmtv : V → GoString) (path : GoString)
    (opts : List (GoString × V)) (h : BagOK opts) :
    ((leftover fmtv path opts).map Prod.fst).Nodup :=
  List.Nodup.sublist ((List.filter_sublist opts).map Prod.fst) h

theorem path_sep_eq (path : GoString) :
    (if !Contains path (ascii "?") then path ++ ascii "?"
      else if !HasSuffix path (ascii "?") then path ++ ascii "&"
      else path) = path ++ querySep path := by
  unfold querySep
  by_cases h1 : ascii "?" <:+: path
  · have c1 : Contains path (ascii "?") = true := (Contains_iff _ _).mpr h1
    by_cases h2 : ascii "?" <:+ path
    · have c2 : HasSuffix path (ascii "?") = true := (HasSuffix_iff _ _).mpr h2
      simp [h1, h2, c1, c2]
    · have c2 : HasSuffix path (ascii "?") = false := by
        cases hc : HasSuffix path (ascii "?") with
        | false => rfl
        | true => exact absurd ((HasSuffix_iff _ _).mp hc) h2
      simp [h1, h2, c1, c2]
  · have c1 : Contains path (ascii "?") = false := by
      cases hc : Contains path (ascii "?") with
      | false => rfl
      | true => exact absurd ((Contains_iff _ _).mp hc) h1
    simp [h1, c1]

/-- Closed form of `addExtraParamsTo` on a bag with distinct keys: the path, the
separator, and the leftover pairs in key order joined by `&`. -/
theorem addExtraParamsTo_eq {V : Type} (fmtv : V → GoString) (path : GoString)
    (opts : List (GoString × V)) (h : BagOK opts) :
    addExtraParamsTo fmtv path opts =
      if (leftover fmtv path opts).length = 0 then path
      else path ++ querySep path ++ List.intercalate (ascii "&")
        ((sortEntries (leftover fmtv path opts)).map (pairText fmtv)) := by
  have hnd := leftover_keys_nodup fmtv path opts h
  unfold addExtraParamsTo
  rw [collectPending_eq]
  simp only [List.nil_append, List.append_nil, List.length_map]
  by_cases hL : (leftover fmtv path opts).length = 0
  · simp [hL]
  · simp only [hL, if_false]
    rw [path_sep_eq, appendPairs_zero, ← sortEntries_keys, List.map_map]
    congr 1
    congr 1
    apply List.map_congr_left
    intro e he
    have heL : e ∈ leftover fmtv path opts := (sortEntries_perm _).mem_iff.mp he
    have hget : StrMap.get
        ((leftover fmtv path opts).map (fun kv => (kv.1, fmtv kv.2))).reverse e.1 = fmtv e.2 := by
      apply StrMap.get_of_mem
      · rw [List.map_reverse, List.nodup_reverse, List.map_map]
        exact hnd
      · rw [List.mem_reverse]
        exact List.mem_map.mpr ⟨e, heL, rfl⟩
    simp [pairText, hget]

theorem mem_leftover {V : Type} (fmtv : V → GoString) (path : GoString)
    (opts : List (GoString × V)) (kv : GoString × V) :
    kv ∈ leftover fmtv path opts ↔ kv ∈ opts ∧ ¬ (fmtv kv.2 <:+: path) := by
  unfold leftover
  rw [List.mem_filter, Bool.not_eq_true', ← Contains_iff]
  simp

theorem upperhex_ne_qmark : ∀ n : Nat, n < 16 → upperhex n ≠ 63 := by
  decide

theorem escapeByte_no_qmark (c : Byte) : (63 : Byte) ∉ escapeByte c := by
  unfold escapeByte
  split
  · decide
  · split
    · rename_i hu
      intro h
      rw [List.mem_singleton] at h
      subst h
      exact absurd hu (by decide)
    · intro h
      simp only [List.mem_cons, List.mem_singleton, List.not_mem_nil, or_false] at h
      rcases h with h | h | h
      · exact absurd h (by decide)
      · exact upperhex_ne_qmark _ (Nat.div_lt_of_lt_mul (by have := c.isLt; omega)) h.symm
      · exact upperhex_ne_qmark _ (Nat.mod_lt _ (by decide)) h.symm

theorem QueryEscape_no_qmark (s : GoString) : (63 : Byte) ∉ QueryEscape s := by
  unfold QueryEscape
  intro h
  rcases List.mem_flatMap.mp h with ⟨c, _, hc⟩
  exact escapeByte_no_qmark c hc

theorem mem_intercalate {sep : GoString} {xs : List GoString} {x : Byte}
    (h : x ∈ List.intercalate sep xs) : x ∈ sep ∨ ∃ y ∈ xs, x ∈ y := by
  cases xs with
  | nil => simp [List.intercalate] at h
  | cons y ys =>
    rw [intercalate_cons_eq, List.mem_append, List.mem_flatten] at h
    rcases h with h | ⟨l, hl, hx⟩
    · exact Or.inr ⟨y, List.mem_cons_self _ _, h⟩
    · rcases List.mem_map.mp hl with ⟨z, hz, rfl⟩
      rcases List.mem_append.mp hx with h1 | h1
      · exact Or.inl h1
      · exact Or.inr ⟨z, List.mem_cons_of_mem _ hz, h1⟩

theorem pairs_no_qmark {V : Type} (fmtv : V → GoString) (es : List (GoString × V)) :
    (63 : Byte) ∉ List.intercalate (ascii "&") (es.map (pairText fmtv)) := by
  intro h
  rcases mem_intercalate h with h1 | ⟨y, hy, h1⟩
  · exact absurd h1 (by decide)
  · rcases List.mem_map.mp hy with ⟨e, _, rfl⟩
    unfold pairText at h1
    rcases List.mem_append.mp h1 with h2 | h2
    · rcases List.mem_append.mp h2 with h3 | h3
      · exact QueryEscape_no_qmark _ h3
      · exact absurd h3 (by decide)
    · exact QueryEscape_no_qmark _ h2

theorem pair_infix_of_append (q : Byte) (a b : GoString) (hb : q ∉ b)
    (h : [q, q] <:+: a ++ b) : [q, q] <:+: a := by
  induction a with
  | nil =>
    exact absurd (h.subset (List.mem_cons_self _ _)) hb
  | cons c a ih =>
    rw [List.cons_append, List.infix_cons_iff] at h
    rcases h with h | h
    · rw [List.cons_prefix_cons] at h
      obtain ⟨hq, hp⟩ := h
      cases a with
      | nil =>
        exact absurd (hp.subset (List.mem_singleton_self _)) hb
      | cons d a =>
        rw [List.cons_append, List.cons_prefix_cons] at hp
        obtain ⟨hd, _⟩ := hp
        subst hq
        subst hd
        exact ⟨[], a, by simp⟩
    · exact List.infix_cons (ih h)

theorem qmark_mem_iff (path : GoString) : ascii "?" <:+: path ↔ (63 : Byte) ∈ path := by
  constructor
  · intro h; exact h.subset (by decide)
  · intro h
    obtain ⟨s, t, rfl⟩ := List.append_of_mem h
    have hq : ascii "?" = [63] := by decide
    exact ⟨s, t, by rw [hq]; simp⟩

/-! ## Statements about `addExtraParamsTo` -/

/-- C1: for every path and every enumeration of a bag, the text appended by
`addExtraParamsTo` is the `&`-joined list of the pairs of the leftover entries
taken in strictly ascending byte-wise lexicographic order of their unescaped
keys; the bag `b=2, a=1` on `/x` gives `/x?a=1&b=2` in both enumeration orders,
never `/x?b=2&a=1`. -/
theorem addExtraParamsTo_keys_ascending {V : Type} (fmtv : V → GoString) (path : GoString)
    (opts : List (GoString × V)) (h : BagOK opts) :
    (∃ es : List (GoString × V),
      es.Perm (leftover fmtv path opts) ∧
      (es.map Prod.fst).Pairwise (List.Lex (· < ·)) ∧
      addExtraParamsTo fmtv path opts =
        if es.length = 0 then path
        else path ++ querySep path ++
          List.intercalate (ascii "&") (es.map (pairText fmtv))) ∧
    addExtraParamsTo id (ascii "/x") [(ascii "b", ascii "2"), (ascii "a", ascii "1")]
      = ascii "/x?a=1&b=2" ∧
    addExtraParamsTo id (ascii "/x") [(ascii "a", ascii "1"), (ascii "b", ascii "2")]
      = ascii "/x?a=1&b=2" ∧
    addExtraParamsTo id (ascii "/x") [(ascii "b", ascii "2"), (ascii "a", ascii "1")]
      ≠ ascii "/x?b=2&a=1" := by
  refine ⟨⟨sortEntries (leftover fmtv path opts), sortEntries_perm _, ?_, ?_⟩,
    by decide, by decide, by decide⟩
  · exact sortEntries_ascending _ (leftover_keys_nodup fmtv path opts h)
  · rw [addExtraParamsTo_eq fmtv path opts h, (sortEntries_perm _).length_eq]

theorem addExtraParamsTo_keys_ascending_witness :
    BagOK [(ascii "page", ascii "2"), (ascii "id", ascii "5"), (ascii "q", ascii "a b")] ∧
    ((∃ es : List (GoString × GoString),
      es.Perm (leftover id (ascii "/users/5")
        [(ascii "page", ascii "2"), (ascii "id", ascii "5"), (ascii "q", ascii "a b")]) ∧
      (es.map Prod.fst).Pairwise (List.Lex (· < ·)) ∧
      addExtraParamsTo id (ascii "/users/5")
          [(ascii "page", ascii "2"), (ascii "id", ascii "5"), (ascii "q", ascii "a b")] =
        if es.length = 0 then ascii "/users/5"
        else ascii "/users/5" ++ querySep (ascii "/users/5") ++
          List.intercalate (ascii "&") (es.map (pairText id))) ∧
    addExtraParamsTo id (ascii "/x") [(ascii "b", ascii "2"), (ascii "a", ascii "1")]
      = ascii "/x?a=1&b=2" ∧
    addExtraParamsTo id (ascii "/x") [(ascii "a", ascii "1"), (ascii "b", ascii "2")]
      = ascii "/x?a=1&b=2" ∧
    addExtraParamsTo id (ascii "/x") [(ascii "b", ascii "2"), (ascii "a", ascii "1")]
      ≠ ascii "/x?b=2&a=1") :=
  ⟨by decide, addExtraParamsTo_keys_ascending id (ascii "/users/5")
    [(ascii "page", ascii "2"), (ascii "id", ascii "5"), (ascii "q", ascii "a b")] (by decide)⟩

/-- C10: for every path and every enumeration of a bag, the appended pairs are
those of a list of entries without repeated key that holds an entry of the bag
exactly when its printed value is not a substring of the path passed in; nothing
else follows the path and its separator. -/
theorem addExtraParamsTo_emits_exactly_leftover {V : Type} (fmtv : V → GoString)
    (path : GoString) (opts : List (GoString × V)) (h : BagOK opts) :
    ∃ es : List (GoString × V),
      (es.map Prod.fst).Nodup ∧
      (∀ k v, (k, v) ∈ es ↔ ((k, v) ∈ opts ∧ ¬ (fmtv v <:+: path))) ∧
      addExtraParamsTo fmtv path opts =
        if es.length = 0 then path
        else path ++ querySep path ++
          List.intercalate (ascii "&") (es.map (pairText fmtv)) := by
  refine ⟨sortEntries (leftover fmtv path opts), ?_, ?_, ?_⟩
  · exact ((sortEntries_perm _).map Prod.fst).nodup_iff.mpr
      (leftover_keys_nodup fmtv path opts h)
  · intro k v
    rw [(sortEntries_perm _).mem_iff, mem_leftover]
  · rw [addExtraParamsTo_eq fmtv path opts h, (sortEntries_perm _).length_eq]

theorem addExtraParamsTo_emits_exactly_leftover_witness :
    BagOK [(ascii "page", ascii "2"), (ascii "id", ascii "5")] ∧
    ∃ es : List (GoString × GoString),
      (es.map Prod.fst).Nodup ∧
      (∀ k v, (k, v) ∈ es ↔
        ((k, v) ∈ [(ascii "page", ascii "2"), (ascii "id", ascii "5")] ∧
          ¬ (id v <:+: ascii "/users/5"))) ∧
      addExtraParamsTo id (ascii "/users/5") [(ascii "page", ascii "2"), (ascii "id", ascii "5")] =
        if es.length = 0 then ascii "/users/5"
        else ascii "/users/5" ++ querySep (ascii "/users/5") ++
          List.intercalate (ascii "&") (es.map (pairText id)) :=
  ⟨by decide, addExtraParamsTo_emits_exactly_leftover id (ascii "/users/5")
    [(ascii "page", ascii "2"), (ascii "id", ascii "5")] (by decide)⟩

theorem querySep_without_qmark {path : GoString} (h : ¬ (ascii "?" <:+: path)) :
    querySep path = ascii "?" := by
  unfold querySep; rw [if_pos h]

theorem querySep_of_not_suffix {path : GoString} (h1 : ascii "?" <:+: path)
    (h2 : ¬ (ascii "?" <:+ path)) : querySep path = ascii "&" := by
  unfold querySep; rw [if_neg (not_not.mpr h1), if_pos h2]

theorem querySep_of_suffix {path : GoString} (h : ascii "?" <:+ path) :
    querySep path = [] := by
  unfold querySep; rw [if_neg (not_not.mpr h.isInfix), if_neg (not_not.mpr h)]

theorem querySep_last (path : GoString) :
    (path ++ querySep path).getLast? = some 63 ∨ (path ++ querySep path).getLast? = some 38 := by
  have hq : ascii "?" = [63] := by decide
  have ha : ascii "&" = [38] := by decide
  by_cases h1 : ascii "?" <:+: path
  · by_cases h2 : ascii "?" <:+ path
    · left
      rw [querySep_of_suffix h2]
      obtain ⟨t, rfl⟩ := h2
      simp [hq]
    · right
      rw [querySep_of_not_suffix h1 h2, ha]
      simp
  · left
    rw [querySep_without_qmark h1, hq]
    simp

theorem no_new_double_qmark {V : Type} (fmtv : V → GoString) (path : GoString)
    (es : List (GoString × V)) (hp : ¬ ascii "??" <:+: path) :
    ¬ ascii "??" <:+: path ++ querySep path ++
      List.intercalate (ascii "&") (es.map (pairText fmtv)) := by
  have hqq : ascii "??" = [63, 63] := by decide
  have hq : ascii "?" = [63] := by decide
  have hpairs := pairs_no_qmark fmtv es
  rw [hqq] at hp ⊢
  intro h
  by_cases h1 : ascii "?" <:+: path
  · have hsep : (63 : Byte) ∉ querySep path := by
      by_cases h2 : ascii "?" <:+ path
      · rw [querySep_of_suffix h2]; simp
      · rw [querySep_of_not_suffix h1 h2]; decide
    rw [List.append_assoc] at h
    refine hp (pair_infix_of_append 63 path _ ?_ h)
    intro hm
    rcases List.mem_append.mp hm with hm | hm
    · exact hsep hm
    · exact hpairs hm
  · have hpath : (63 : Byte) ∉ path := fun hm => h1 ((qmark_mem_iff path).mpr hm)
    have hcount := h.sublist.count_le (63 : Byte)
    rw [querySep_without_qmark h1, hq, List.count_append, List.count_append,
      List.count_eq_zero_of_not_mem hpath, List.count_eq_zero_of_not_mem hpairs] at hcount
    simp at hcount

/-- C2: for every path and every enumeration of a bag with at least one leftover
entry, the result is the path, a separator and the pairs, the separator being
`?` when the path has no `?`, `&` when the path has a `?` and does not end with
one, and empty when the path ends with `?`; what precedes the pairs ends with
`?` or `&`, and no `??` appears that the path did not already have;
`/x?sort=asc` with leftover `page=2` gives `/x?sort=asc&page=2`. -/
theorem addExtraParamsTo_separator {V : Type} (fmtv : V → GoString) (path : GoString)
    (opts : List (GoString × V)) (h : BagOK opts)
    (hne : ∃ k v, (k, v) ∈ opts ∧ ¬ (fmtv v <:+: path)) :
    (∃ sep pairs : GoString,
      addExtraParamsTo fmtv path opts = path ++ sep ++ pairs ∧
      pairs = List.intercalate (ascii "&")
        ((sortEntries (leftover fmtv path opts)).map (pairText fmtv)) ∧
      (¬ (ascii "?" <:+: path) → sep = ascii "?") ∧
      (ascii "?" <:+: path → ¬ (ascii "?" <:+ path) → sep = ascii "&") ∧
      (ascii "?" <:+ path → sep = []) ∧
      ((path ++ sep).getLast? = some 63 ∨ (path ++ sep).getLast? = some 38)) ∧
    (¬ (ascii "??" <:+: path) → ¬ (ascii "??" <:+: addExtraParamsTo fmtv path opts)) ∧
    addExtraParamsTo id (ascii "/x?sort=asc") [(ascii "page", ascii "2")]
      = ascii "/x?sort=asc&page=2" := by
  have hlen : ¬ (leftover fmtv path opts).length = 0 := by
    obtain ⟨k, v, hkv⟩ := hne
    have hm : (k, v) ∈ leftover fmtv path opts := (mem_leftover fmtv path opts (k, v)).mpr hkv
    intro h0
    rw [List.length_eq_zero] at h0
    rw [h0] at hm
    cases hm
  have heq := addExtraParamsTo_eq fmtv path opts h
  rw [if_neg hlen] at heq
  refine ⟨⟨querySep path, _, heq, rfl, ?_, ?_, ?_, querySep_last path⟩, ?_, by decide⟩
  · exact querySep_without_qmark
  · exact querySep_of_not_suffix
  · exact querySep_of_suffix
  · intro hp
    rw [heq]
    exact no_new_double_qmark fmtv path _ hp

theorem addExtraParamsTo_separator_witness :
    BagOK [(ascii "page", ascii "2"), (ascii "id", ascii "5")] ∧
    (∃ k v, (k, v) ∈ [(ascii "page", ascii "2"), (ascii "id", ascii "5")] ∧
      ¬ (id v <:+: ascii "/users/5?")) ∧
    ((∃ sep pairs : GoString,
      addExtraParamsTo id (ascii "/users/5?")
        [(ascii "page", ascii "2"), (ascii "id", ascii "5")] = ascii "/users/5?" ++ sep ++ pairs ∧
      pairs = List.intercalate (ascii "&")
        ((sortEntries (leftover id (ascii "/users/5?")
          [(ascii "page", ascii "2"), (ascii "id", ascii "5")])).map (pairText id)) ∧
      (¬ (ascii "?" <:+: ascii "/users/5?") → sep = ascii "?") ∧
      (ascii "?" <:+: ascii "/users/5?" → ¬ (ascii "?" <:+ ascii "/users/5?") → sep = ascii "&") ∧
      (ascii "?" <:+ ascii "/users/5?" → sep = []) ∧
      ((ascii "/users/5?" ++ sep).getLast? = some 63 ∨
        (ascii "/users/5?" ++ sep).getLast? = some 38)) ∧
    (¬ (ascii "??" <:+: ascii "/users/5?") →
      ¬ (ascii "??" <:+: addExtraParamsTo id (ascii "/users/5?")
        [(ascii "page", ascii "2"), (ascii "id", ascii "5")])) ∧
    addExtraParamsTo id (ascii "/x?sort=asc") [(ascii "page", ascii "2")]
      = ascii "/x?sort=asc&page=2") :=
  ⟨by decide, ⟨ascii "page", ascii "2", by decide, by decide⟩,
    addExtraParamsTo_separator id (ascii "/users/5?")
      [(ascii "page", ascii "2"), (ascii "id", ascii "5")] (by decide)
      ⟨ascii "page", ascii "2", by decide, by decide⟩⟩

/-! ## Statements about `BuildPathHelper` -/

theorem pairKeys_flattenPairs {V : Type} (fmtv : V → GoString) (opts : List (GoString × V)) :
    pairKeys (flattenPairs fmtv opts) = opts.map Prod.fst := by
  induction opts with
  | nil => rfl
  | cons kv rest ih =>
    obtain ⟨k, v⟩ := kv
    simp [flattenPairs, pairKeys, ih]

/-- C3: the path helper fails exactly when the matcher fails on the flattened bag;
it then returns the empty path with the error "missing parameters for " followed
by the route's `Path`; when the matcher succeeds there is no error and the result
is `addExtraParamsTo` of the rendered URL's `Path` and the bag. A matcher that
rejects every pair sequence lacking a key makes the helper fail on every bag
lacking that key; on the sample matcher for `/widgets/{id}` the empty bag fails
and the bag `id=5, page=2` gives `/widgets/5?page=2`. -/
theorem BuildPathHelper_error_iff_matcher_fails {V : Type}
    (muxURL : Nat → List GoString → Except GoString URL) (fmtv : V → GoString)
    (ri : RouteInfo) (opts : List (GoString × V)) :
    ((BuildPathHelper muxURL fmtv ri opts).2 ≠ none ↔
      ∃ e, muxURL ri.MuxRoute (flattenPairs fmtv opts) = .error e) ∧
    (∀ e, muxURL ri.MuxRoute (flattenPairs fmtv opts) = .error e →
      BuildPathHelper muxURL fmtv ri opts =
        ([], some (ascii "missing parameters for " ++ ri.Path))) ∧
    (∀ url, muxURL ri.MuxRoute (flattenPairs fmtv opts) = .ok url →
      BuildPathHelper muxURL fmtv ri opts = (addExtraParamsTo fmtv url.Path opts, none)) ∧
    (∀ key, (∀ pairs, key ∉ pairKeys pairs → ∃ e, muxURL ri.MuxRoute pairs = .error e) →
      key ∉ opts.map Prod.fst →
      BuildPathHelper muxURL fmtv ri opts =
        ([], some (ascii "missing parameters for " ++ ri.Path))) ∧
    BuildPathHelper widgetsURL id widgetRoute [] =
      ([], some (ascii "missing parameters for /widgets/{id}")) ∧
    BuildPathHelper widgetsURL id widgetRoute [(ascii "page", ascii "2"), (ascii "id", ascii "5")] =
      (ascii "/widgets/5?page=2", none) := by
  have herr : ∀ e, muxURL ri.MuxRoute (flattenPairs fmtv opts) = .error e →
      BuildPathHelper muxURL fmtv ri opts =
        ([], some (ascii "missing parameters for " ++ ri.Path)) := by
    intro e he
    simp [BuildPathHelper, he]
  have hok : ∀ url, muxURL ri.MuxRoute (flattenPairs fmtv opts) = .ok url →
      BuildPathHelper muxURL fmtv ri opts = (addExtraParamsTo fmtv url.Path opts, none) := by
    intro url hu
    simp [BuildPathHelper, hu]
  refine ⟨?_, herr, hok, ?_, by decide, by decide⟩
  · constructor
    · intro hne
      cases hm : muxURL ri.MuxRoute (flattenPairs fmtv opts) with
      | error e => exact ⟨e, rfl⟩
      | ok url => rw [hok url hm] at hne; exact absurd rfl hne
    · rintro ⟨e, he⟩
      rw [herr e he]
      simp
  · intro key hkey hmiss
    have hk : key ∉ pairKeys (flattenPairs fmtv opts) := by
      rw [pairKeys_flattenPairs]; exact hmiss
    obtain ⟨e, he⟩ := hkey _ hk
    exact herr e he

/-! ## Statements about `ServeHTTP` -/

/-- C6: when the wrapped handler returns no error, `ServeHTTP` issues no call
besides building the context and running the handler (no error handler, no
table lookup, no flash persistence, no log entry, no `WriteHeader`, no `Write`),
and the world it leaves is the one the handler left. -/
theorem ServeHTTP_handler_ok {W H : Type} (a : ServeEnv W H) (w w1 : W)
    (h : a.handler (a.newContext w) = (w1, none)) :
    ServeHTTP a w = (w1, [Call.newContext, Call.handler]) := by
  simp [ServeHTTP, h]

theorem ServeHTTP_handler_ok_witness :
    (recorderEnv none none).handler ((recorderEnv none none).newContext freshRecorder)
      = (freshRecorder, none) ∧
    ServeHTTP (recorderEnv none none) freshRecorder
      = (freshRecorder, [Call.newContext, Call.handler]) :=
  ⟨rfl, ServeHTTP_handler_ok (recorderEnv none none) freshRecorder freshRecorder rfl⟩

/-- C5: when the wrapped handler fails with `err`, the resolved status is the
`Status` of the root cause of `err` when that is an `HTTPError` and 500
otherwise; `ServeHTTP` persists the flash, looks the table up with exactly that
status and calls the handler it got with that status and the original `err`, on
the world left by the flash persistence; nothing but the fatal path may follow.
A root cause `HTTPError` with status 404 selects the handler returned for 404. -/
theorem ServeHTTP_selects_error_handler {W H : Type} (a : ServeEnv W H) (w w1 : W)
    (err : GoError) (h : a.handler (a.newContext w) = (w1, some err)) :
    (∀ Status msg, Cause err = GoError.HTTPError Status msg → resolveStatus err = Status) ∧
    ((∀ Status msg, Cause err ≠ GoError.HTTPError Status msg) → resolveStatus err = 500) ∧
    (∃ tail : List (Call H),
      (ServeHTTP a w).2 =
        [Call.newContext, Call.handler, Call.flashPersist,
          Call.errorHandlersGet (resolveStatus err),
          Call.errorHandler (a.Get (resolveStatus err)) (resolveStatus err) err] ++ tail ∧
      (tail = [] ∨ ∃ err1, tail =
        [Call.loggerError err1, Call.WriteHeader 500, Call.Write err1.Error])) ∧
    (ServeHTTP a w).1 =
      (match a.run (a.Get (resolveStatus err)) (resolveStatus err) err (a.persist w1) with
        | (w3, none) => w3
        | (w3, some err1) => a.Write err1.Error (a.WriteHeader 500 (a.loggerError err1 w3))) ∧
    (∀ msg, Cause err = GoError.HTTPError 404 msg →
      Call.errorHandler (a.Get 404) 404 err ∈ (ServeHTTP a w).2) := by
  have hstatus : ∀ Status msg, Cause err = GoError.HTTPError Status msg →
      resolveStatus err = Status := by
    intro Status msg hc
    simp [resolveStatus, hc]
  refine ⟨hstatus, ?_, ?_, ?_, ?_⟩
  · intro hno
    unfold resolveStatus
    cases hc : Cause err with
    | plain m => rfl
    | HTTPError st m => exact absurd hc (hno st m)
    | causer m c => rfl
  · cases hr : a.run (a.Get (resolveStatus err)) (resolveStatus err) err (a.persist w1) with
    | mk w3 r =>
      cases r with
      | none => exact ⟨[], by simp [ServeHTTP, h, hr], Or.inl rfl⟩
      | some err1 =>
        exact ⟨[Call.loggerError err1, Call.WriteHeader 500, Call.Write err1.Error],
          by simp [ServeHTTP, h, hr], Or.inr ⟨err1, rfl⟩⟩
  · cases hr : a.run (a.Get (resolveStatus err)) (resolveStatus err) err (a.persist w1) with
    | mk w3 r =>
      cases r with
      | none => simp [ServeHTTP, h, hr]
      | some err1 => simp [ServeHTTP, h, hr]
  · intro msg hc
    have hs := hstatus 404 msg hc
    cases hr : a.run (a.Get 404) 404 err (a.persist w1) with
    | mk w3 r =>
      cases r with
      | none => simp [ServeHTTP, h, hr, hs]
      | some err1 => simp [ServeHTTP, h, hr, hs]

theorem ServeHTTP_selects_error_handler_witness :
    (recorderEnv (some notFoundErr) none).handler
        ((recorderEnv (some notFoundErr) none).newContext freshRecorder)
      = (freshRecorder, some notFoundErr) ∧
    resolveStatus notFoundErr = 404 ∧
    Call.errorHandler ((recorderEnv (some notFoundErr) none).Get 404) 404 notFoundErr ∈
      (ServeHTTP (recorderEnv (some notFoundErr) none) freshRecorder).2 :=
  ⟨rfl, by decide,
    (ServeHTTP_selects_error_handler (recorderEnv (some notFoundErr) none) freshRecorder
      freshRecorder notFoundErr rfl).2.2.2.2 (ascii "not found") (by decide)⟩

theorem ServeHTTP_fatal_path {W H : Type} (a : ServeEnv W H) (w w1 w3 : W)
    (err e : GoError) (h : a.handler (a.newContext w) = (w1, some err))
    (he : a.run (a.Get (resolveStatus err)) (resolveStatus err) err (a.persist w1)
      = (w3, some e)) :
    ServeHTTP a w =
      (a.Write e.Error (a.WriteHeader 500 (a.loggerError e w3)),
        [Call.newContext, Call.handler, Call.flashPersist,
          Call.errorHandlersGet (resolveStatus err),
          Call.errorHandler (a.Get (resolveStatus err)) (resolveStatus err) err,
          Call.loggerError e, Call.WriteHeader 500, Call.Write e.Error]) := by
  simp [ServeHTTP, h, he]

theorem Response.fatal_write (r : Response) (msg : GoString) :
    ((r.WriteHeader 500).Write msg).wroteHeader = true ∧
    ((r.WriteHeader 500).Write msg).Code = (if r.wroteHeader = true then r.Code else 500) ∧
    ((r.WriteHeader 500).Write msg).Body = r.Body ++ msg := by
  cases hw : r.wroteHeader <;> simp [Response.Write, Response.WriteHeader, hw]

/-- C4, amended: when the wrapped handler fails with `err` and the error handler
selected for it fails with `e`, `ServeHTTP` ends by logging `e`, calling
`WriteHeader(500)` and writing the message of `e` (not that of `err`), in that
order and whatever status `err` resolved to. On a response writer of `net/http`
the response then holds the body the error handler left followed by the message
of `e`, with the status the error handler had sent, or 500 when it had sent no
header. So the final status is 500 and the body is the message of `e` exactly
when the error handler left no body and no header other than 500. -/
theorem ServeHTTP_error_handler_fails {W H : Type} (a : ServeEnv W H) (res : W → Response)
    (w w1 w3 : W) (err e : GoError) (hres : WritesResponse a res)
    (h : a.handler (a.newContext w) = (w1, some err))
    (he : a.run (a.Get (resolveStatus err)) (resolveStatus err) err (a.persist w1)
      = (w3, some e)) :
    ServeHTTP a w =
      (a.Write e.Error (a.WriteHeader 500 (a.loggerError e w3)),
        [Call.newContext, Call.handler, Call.flashPersist,
          Call.errorHandlersGet (resolveStatus err),
          Call.errorHandler (a.Get (resolveStatus err)) (resolveStatus err) err,
          Call.loggerError e, Call.WriteHeader 500, Call.Write e.Error]) ∧
    res (ServeHTTP a w).1 = ((res w3).WriteHeader 500).Write e.Error ∧
    (res (ServeHTTP a w).1).wroteHeader = true ∧
    (res (ServeHTTP a w).1).Code = (if (res w3).wroteHeader = true then (res w3).Code else 500) ∧
    (res (ServeHTTP a w).1).Body = (res w3).Body ++ e.Error ∧
    (((res (ServeHTTP a w).1).Code = 500 ∧ (res (ServeHTTP a w).1).Body = e.Error) ↔
      (((res w3).wroteHeader = false ∨ (res w3).Code = 500) ∧ (res w3).Body = [])) := by
  obtain ⟨hWH, hW, hL⟩ := hres
  have hrun := ServeHTTP_fatal_path a w w1 w3 err e h he
  have hfinal : res (ServeHTTP a w).1 = ((res w3).WriteHeader 500).Write e.Error := by
    rw [hrun]
    show res (a.Write e.Error (a.WriteHeader 500 (a.loggerError e w3))) = _
    rw [hW, hWH, hL]
  obtain ⟨f1, f2, f3⟩ := Response.fatal_write (res w3) e.Error
  refine ⟨hrun, hfinal, ?_, ?_, ?_, ?_⟩
  · rw [hfinal]; exact f1
  · rw [hfinal]; exact f2
  · rw [hfinal]; exact f3
  · rw [hfinal, f2, f3, List.append_left_eq_self]
    cases hw : (res w3).wroteHeader <;> simp

theorem ServeHTTP_error_handler_fails_witness :
    WritesResponse (writerEnv none) Prod.fst ∧
    (writerEnv none).handler ((writerEnv none).newContext (freshResponse, []))
      = ((freshResponse, []), some notFoundErr) ∧
    (writerEnv none).run ((writerEnv none).Get (resolveStatus notFoundErr))
        (resolveStatus notFoundErr) notFoundErr ((writerEnv none).persist (freshResponse, []))
      = ((freshResponse, []), some renderErr) ∧
    (ServeHTTP (writerEnv none) (freshResponse, [])).1
      = ({ wroteHeader := true, Code := 500, Body := ascii "render failed" }, [renderErr]) ∧
    ((ServeHTTP (writerEnv none) (freshResponse, [])).1.1.Code = 500 ∧
      (ServeHTTP (writerEnv none) (freshResponse, [])).1.1.Body = renderErr.Error) :=
  have hres : WritesResponse (writerEnv none) Prod.fst :=
    ⟨fun _ _ => rfl, fun _ _ => rfl, fun _ _ => rfl⟩
  ⟨hres, rfl, rfl, by decide,
    (ServeHTTP_error_handler_fails (writerEnv none) Prod.fst (freshResponse, [])
      (freshResponse, []) (freshResponse, []) notFoundErr renderErr hres rfl rfl).2.2.2.2.2.mpr
      ⟨Or.inl rfl, rfl⟩⟩

/-- C4 fails when the error handler has written before it fails: on a response
writer of `net/http` the handler fails with a 404 error, the error handler sends
status 404 and the body `oops` and then fails with `render failed`; the
dispatcher still calls `WriteHeader(500)` and `Write`, and the response ends with
status 404 and body `oopsrender failed`. -/
theorem ServeHTTP_error_handler_wrote_first :
    WritesResponse (writerEnv (some (404, ascii "oops"))) Prod.fst ∧
    (writerEnv (some (404, ascii "oops"))).handler
        ((writerEnv (some (404, ascii "oops"))).newContext (freshResponse, []))
      = ((freshResponse, []), some notFoundErr) ∧
    (writerEnv (some (404, ascii "oops"))).run
        ((writerEnv (some (404, ascii "oops"))).Get (resolveStatus notFoundErr))
        (resolveStatus notFoundErr) notFoundErr
        ((writerEnv (some (404, ascii "oops"))).persist (freshResponse, []))
      = (({ wroteHeader := true, Code := 404, Body := ascii "oops" }, []), some renderErr) ∧
    ServeHTTP (writerEnv (some (404, ascii "oops"))) (freshResponse, []) =
      (({ wroteHeader := true, Code := 404, Body := ascii "oopsrender failed" }, [renderErr]),
        [Call.newContext, Call.handler, Call.flashPersist, Call.errorHandlersGet 404,
          Call.errorHandler 404 404 notFoundErr,
          Call.loggerError renderErr, Call.WriteHeader 500,
          Call.Write (ascii "render failed")]) ∧
    (ServeHTTP (writerEnv (some (404, ascii "oops"))) (freshResponse, [])).1.1.Code ≠ 500 ∧
    (ServeHTTP (writerEnv (some (404, ascii "oops"))) (freshResponse, [])).1.1.Body
      ≠ renderErr.Error :=
  ⟨⟨fun _ _ => rfl, fun _ _ => rfl, fun _ _ => rfl⟩, by decide⟩

/-! ## Statements about `Alias` -/

theorem alias_registrations (ri : Ptr) (aliases : List GoString) (st : App) :
    aliases.foldl
        (fun st al => { st with router := st.router ++ [⟨al, ri, (st.heap ri).Method⟩] }) st =
      { st with router := st.router ++
          aliases.map (fun al => (⟨al, ri, (st.heap ri).Method⟩ : Registration)) } := by
  induction aliases generalizing st with
  | nil => simp
  | cons al rest ih => simp [List.foldl_cons, ih, List.append_assoc]

/-- C9: after `Alias(p1, ..., pn)` on the descriptor at `ri` the alias list is the
old one followed by `p1, ..., pn`; the matcher has received, after what it held,
exactly one registration per pattern, in argument order, each with this
descriptor as target and the descriptor's `Method`; every other field of the
descriptor, every other descriptor and the registry are unchanged; and `ri` is
returned. -/
theorem Alias_appends_and_registers (ri : Ptr) (aliases : List GoString) (a : App) :
    (Alias ri aliases a).2 = ri ∧
    ((Alias ri aliases a).1.heap ri).Aliases = (a.heap ri).Aliases ++ aliases ∧
    (Alias ri aliases a).1.router =
      a.router ++ aliases.map (fun p => (⟨p, ri, (a.heap ri).Method⟩ : Registration)) ∧
    ((Alias ri aliases a).1.heap ri).Method = (a.heap ri).Method ∧
    ((Alias ri aliases a).1.heap ri).Path = (a.heap ri).Path ∧
    ((Alias ri aliases a).1.heap ri).HandlerName = (a.heap ri).HandlerName ∧
    ((Alias ri aliases a).1.heap ri).PathName = (a.heap ri).PathName ∧
    ((Alias ri aliases a).1.heap ri).MuxRoute = (a.heap ri).MuxRoute ∧
    ((Alias ri aliases a).1.heap ri).Handler = (a.heap ri).Handler ∧
    (∀ q, q ≠ ri → (Alias ri aliases a).1.heap q = a.heap q) ∧
    (Alias ri aliases a).1.routes = a.routes ∧
    ((Alias 0 [ascii "/foo/:id", ascii "/bar/:id"] widgetApp).1.heap 0).Aliases
      = [ascii "/foo/:id", ascii "/bar/:id"] ∧
    (Alias 0 [ascii "/foo/:id", ascii "/bar/:id"] widgetApp).1.router
      = [⟨ascii "/foo/:id", 0, ascii "GET"⟩, ⟨ascii "/bar/:id", 0, ascii "GET"⟩] := by
  refine ⟨rfl, ?_, ?_, ?_, ?_, ?_, ?_, ?_, ?_, ?_, ?_, by decide, by decide⟩
  all_goals simp only [Alias, alias_registrations]
  all_goals simp
  intro q hq
  exact Function.update_noteq hq _ _

/-! ## Statements about `Name` -/

theorem pathNameAfter_eq (ri : Ptr) (n : GoString) (a : App) :
    pathNameAfter ri n a =
      if HasSuffix (CamelizeDownFirst n) (ascii "Path") = true then CamelizeDownFirst n
      else CamelizeDownFirst n ++ ascii "Path" := by
  unfold pathNameAfter Name
  cases findRoute a.heap ri a.routes 0 with
  | none => by_cases h : HasSuffix (CamelizeDownFirst n) (ascii "Path") = true <;> simp [h]
  | some i => by_cases h : HasSuffix (CamelizeDownFirst n) (ascii "Path") = true <;> simp [h]

theorem isUpper_toLower (c : Byte) : isUpper (toLower c) = false := by
  unfold toLower
  by_cases h : isUpper c = true
  · rw [if_pos h]
    simp only [isUpper, Bool.and_eq_true, decide_eq_true_eq] at h
    have hv : (c + 32).val = c.val + 32 := by
      rw [Fin.val_add]
      have : (32 : Fin 256).val = 32 := rfl
      rw [this]
      omega
    simp only [isUpper, hv, Bool.and_eq_false_iff, decide_eq_false_iff_not]
    omega
  · rw [if_neg h]
    simpa using h

theorem toLower_toLower (c : Byte) : toLower (toLower c) = toLower c := by
  have h := isUpper_toLower c
  generalize toLower c = d at h ⊢
  unfold toLower
  rw [h]
  rfl

theorem pathNameAfter_suffix (ri : Ptr) (n : GoString) (a : App) :
    HasSuffix (pathNameAfter ri n a) (ascii "Path") = true := by
  rw [pathNameAfter_eq]
  by_cases h : HasSuffix (CamelizeDownFirst n) (ascii "Path") = true
  · rw [if_pos h]; exact h
  · rw [if_neg h, HasSuffix_iff]
    exact List.suffix_append _ _

theorem pathNameAfter_cons (ri : Ptr) (c : Byte) (rest : GoString) (a : App) :
    ∃ tail, pathNameAfter ri (c :: rest) a = toLower c :: tail := by
  rw [pathNameAfter_eq]
  by_cases h : HasSuffix (CamelizeDownFirst (c :: rest)) (ascii "Path") = true
  · rw [if_pos h]; exact ⟨rest, rfl⟩
  · rw [if_neg h]; exact ⟨rest ++ ascii "Path", rfl⟩

/-- C7: for every name with a first character `c`, after `Name` the `PathName` is
what `CamelizeDownFirst` made of the name, followed by `Path` unless that already
ends with `Path`; so it ends with `Path`. `CamelizeDownFirst` lower-cases `c`, so
the first character of the `PathName` is the lower-cased `c`: the lower-case
letter of `c` when `c` is an upper-case letter, `c` itself otherwise, and never
an upper-case letter. `Name("show")` on `/widgets/{id}` gives `showPath`. The
empty name has no first character: the spec's sentence on `CamelizeDownFirst`
gives no result for it and nothing is stated about it. -/
theorem Name_pathName_shape (ri : Ptr) (c : Byte) (rest : GoString) (a : App) :
    pathNameAfter ri (c :: rest) a =
      (if HasSuffix (CamelizeDownFirst (c :: rest)) (ascii "Path") = true
        then CamelizeDownFirst (c :: rest)
        else CamelizeDownFirst (c :: rest) ++ ascii "Path") ∧
    ascii "Path" <:+ pathNameAfter ri (c :: rest) a ∧
    CamelizeDownFirst (c :: rest) = toLower c :: rest ∧
    (pathNameAfter ri (c :: rest) a).head? = some (toLower c) ∧
    isUpper (toLower c) = false ∧
    (isUpper c = true → (toLower c).val = c.val + 32) ∧
    (isUpper c = false → toLower c = c) ∧
    pathNameAfter 0 (ascii "show") widgetApp = ascii "showPath" := by
  obtain ⟨tail, ht⟩ := pathNameAfter_cons ri c rest a
  refine ⟨pathNameAfter_eq ri (c :: rest) a,
    (HasSuffix_iff _ _).mp (pathNameAfter_suffix ri (c :: rest) a), rfl, ?_,
    isUpper_toLower c, ?_, ?_, by decide⟩
  · rw [ht]; rfl
  · intro hu
    unfold toLower
    rw [if_pos hu]
    simp only [isUpper, Bool.and_eq_true, decide_eq_true_eq] at hu
    rw [Fin.val_add]
    have h32 : (32 : Fin 256).val = 32 := rfl
    rw [h32]
    omega
  · intro hu
    unfold toLower
    rw [hu]
    rfl

/-- C8, amended: for every name with a first character, applying `Name` to the
`PathName` it produced produces that `PathName` again, on the same descriptor
and on any other; `Name("ShowPath")` and `Name("showPath")` both give `showPath`.
A name gets `Path` appended exactly when what `CamelizeDownFirst` made of it does
not end with `Path`. The empty name has no first character: the spec's sentence
on `CamelizeDownFirst` gives no result for it and nothing is stated about it. -/
theorem Name_idempotent_on_nonempty (ri : Ptr) (c : Byte) (rest : GoString) (a : App) :
    pathNameAfter ri (pathNameAfter ri (c :: rest) a) (Name ri (c :: rest) a).1
      = pathNameAfter ri (c :: rest) a ∧
    (∀ (rj : Ptr) (b : App),
      pathNameAfter rj (pathNameAfter ri (c :: rest) a) b = pathNameAfter ri (c :: rest) a) ∧
    pathNameAfter 0 (ascii "ShowPath") widgetApp = ascii "showPath" ∧
    pathNameAfter 0 (ascii "showPath") widgetApp = ascii "showPath" ∧
    (HasSuffix (CamelizeDownFirst (c :: rest)) (ascii "Path") = true →
      pathNameAfter ri (c :: rest) a = CamelizeDownFirst (c :: rest)) ∧
    (HasSuffix (CamelizeDownFirst (c :: rest)) (ascii "Path") = false →
      pathNameAfter ri (c :: rest) a = CamelizeDownFirst (c :: rest) ++ ascii "Path") := by
  have hidem : ∀ (rj : Ptr) (b : App),
      pathNameAfter rj (pathNameAfter ri (c :: rest) a) b = pathNameAfter ri (c :: rest) a := by
    intro rj b
    obtain ⟨tail, ht⟩ := pathNameAfter_cons ri c rest a
    have hsuf := pathNameAfter_suffix ri (c :: rest) a
    have hfix : CamelizeDownFirst (pathNameAfter ri (c :: rest) a)
        = pathNameAfter ri (c :: rest) a := by
      rw [ht, CamelizeDownFirst, toLower_toLower]
    rw [pathNameAfter_eq rj (pathNameAfter ri (c :: rest) a), hfix, if_pos hsuf]
  refine ⟨hidem ri _, hidem, by decide, by decide, ?_, ?_⟩
  · intro hs
    rw [pathNameAfter_eq]
    exact if_pos hs
  · intro hs
    rw [pathNameAfter_eq]
    exact if_neg (by rw [hs]; decide)

/-- C8 fails on the name `Path`: it ends with `Path`, its first character is
lower-cased to give `path`, which does not, and it is given a second `Path`. -/
theorem Name_Path_gets_second_suffix :
    HasSuffix (ascii "Path") (ascii "Path") = true ∧
    CamelizeDownFirst (ascii "Path") = ascii "path" ∧
    pathNameAfter 0 (ascii "Path") widgetApp = ascii "pathPath" ∧
    pathNameAfter 0 (ascii "Path") widgetApp
      = CamelizeDownFirst (ascii "Path") ++ ascii "Path" ∧
    pathNameAfter 0 (ascii "Path") widgetApp ≠ CamelizeDownFirst (ascii "Path") := by
  decide

/-! ## Further statements about `addExtraParamsTo` -/

theorem addExtraParamsTo_of_leftover_nil {V : Type} (fmtv : V → GoString) (path : GoString)
    (opts : List (GoString × V)) (h : leftover fmtv path opts = []) :
    addExtraParamsTo fmtv path opts = path := by
  unfold addExtraParamsTo
  rw [collectPending_eq, h]
  simp

theorem addExtraParamsTo_congr_leftover {V : Type} (fmtv : V → GoString) (path : GoString)
    (opts1 opts2 : List (GoString × V))
    (h : leftover fmtv path opts1 = leftover fmtv path opts2) :
    addExtraParamsTo fmtv path opts1 = addExtraParamsTo fmtv path opts2 := by
  unfold addExtraParamsTo
  rw [collectPending_eq, collectPending_eq, h]

/-- C11: when no entry of the bag is leftover (the bag is empty, or every printed
value occurs in the path), `addExtraParamsTo` returns the path itself: nothing,
in particular no `?` and no `&`, is added. -/
theorem addExtraParamsTo_no_leftover {V : Type} (fmtv : V → GoString) (path : GoString)
    (opts : List (GoString × V)) (h : ∀ kv ∈ opts, fmtv kv.2 <:+: path) :
    addExtraParamsTo fmtv path opts = path ∧
    addExtraParamsTo fmtv path [] = path := by
  constructor
  · apply addExtraParamsTo_of_leftover_nil
    unfold leftover
    rw [List.filter_eq_nil_iff]
    intro kv hkv
    have := (Contains_iff path (fmtv kv.2)).mpr (h kv hkv)
    simp [this]
  · exact addExtraParamsTo_of_leftover_nil fmtv path [] rfl

theorem addExtraParamsTo_no_leftover_witness :
    (∀ kv ∈ [(ascii "id", ascii "5"), (ascii "kind", ascii "users")],
      id kv.2 <:+: ascii "/users/5") ∧
    addExtraParamsTo id (ascii "/users/5") [(ascii "id", ascii "5"), (ascii "kind", ascii "users")]
      = ascii "/users/5" ∧
    addExtraParamsTo (id : GoString → GoString) (ascii "/users/5") [] = ascii "/users/5" :=
  ⟨by decide, addExtraParamsTo_no_leftover id (ascii "/users/5")
    [(ascii "id", ascii "5"), (ascii "kind", ascii "users")] (by decide)⟩

/-- C19: an entry whose printed value is empty is never leftover, taking it out
of the bag does not change the result, and a bag holding only such an entry
leaves the path unchanged, whatever the key. -/
theorem addExtraParamsTo_skips_empty_value {V : Type} (fmtv : V → GoString) (path : GoString)
    (k : GoString) (v : V) (before after : List (GoString × V)) (hv : fmtv v = []) :
    (k, v) ∉ leftover fmtv path (before ++ (k, v) :: after) ∧
    addExtraParamsTo fmtv path (before ++ (k, v) :: after)
      = addExtraParamsTo fmtv path (before ++ after) ∧
    addExtraParamsTo fmtv path [(k, v)] = path := by
  have hc : Contains path (fmtv v) = true := by
    rw [hv, Contains_iff]; exact List.nil_infix
  have hl : ∀ pre post : List (GoString × V),
      leftover fmtv path (pre ++ (k, v) :: post) = leftover fmtv path (pre ++ post) := by
    intro pre post
    simp [leftover, List.filter_append, List.filter_cons, hc]
  refine ⟨?_, addExtraParamsTo_congr_leftover fmtv path _ _ (hl before after), ?_⟩
  · intro hm
    have := (mem_leftover fmtv path _ (k, v)).mp hm
    exact this.2 ((Contains_iff _ _).mp hc)
  · apply addExtraParamsTo_of_leftover_nil
    simp [leftover, hc]

theorem addExtraParamsTo_skips_empty_value_witness :
    id ([] : GoString) = [] ∧
    (ascii "q", ([] : GoString)) ∉
      leftover id (ascii "/x") ([(ascii "page", ascii "2")] ++ (ascii "q", []) :: []) ∧
    addExtraParamsTo id (ascii "/x") ([(ascii "page", ascii "2")] ++ (ascii "q", []) :: [])
      = addExtraParamsTo id (ascii "/x") ([(ascii "page", ascii "2")] ++ []) ∧
    addExtraParamsTo id (ascii "/x") [(ascii "q", ([] : GoString))] = ascii "/x" :=
  ⟨rfl, addExtraParamsTo_skips_empty_value id (ascii "/x") (ascii "q") []
    [(ascii "page", ascii "2")] [] rfl⟩

/-- C17: the substring check drops a parameter that is no placeholder: on the
pattern `/users/{id}` the bag `id=5, page=5` renders `/users/5`, the pattern has
no `{page}`, and `addExtraParamsTo` on `/users/5` returns `/users/5` without a
`page` pair, while `page=7` in its place is appended. -/
theorem addExtraParamsTo_drops_unrelated_parameter :
    usersURL usersRoute.MuxRoute
        (flattenPairs Value.format [(ascii "id", .int 5), (ascii "page", .int 5)])
      = .ok ⟨ascii "/users/5"⟩ ∧
    ¬ (ascii "{page}" <:+: usersRoute.Path) ∧
    addExtraParamsTo Value.format (ascii "/users/5")
        [(ascii "id", .int 5), (ascii "page", .int 5)] = ascii "/users/5" ∧
    BuildPathHelper usersURL Value.format usersRoute
        [(ascii "id", .int 5), (ascii "page", .int 5)] = (ascii "/users/5", none) ∧
    addExtraParamsTo Value.format (ascii "/users/5")
        [(ascii "id", .int 5), (ascii "page", .int 7)] = ascii "/users/5?page=7" := by
  refine ⟨rfl, ?_, by decide, by decide, by decide⟩
  rw [← Contains_iff]
  decide

theorem lexKey_antisymm {V : Type} :
    IsAntisymm (GoString × V) (fun a b => List.Lex (fun x y : Byte => x < y) a.1 b.1) :=
  ⟨fun a b h1 h2 => by
    have h3 := strLess_asymm ((strLess_iff_lex a.1 b.1).mpr h1)
    rw [(strLess_iff_lex b.1 a.1).mpr h2] at h3
    exact absurd h3 (by decide)⟩

theorem sortEntries_eq_of_perm {V : Type} (es1 es2 : List (GoString × V))
    (hnd : (es1.map Prod.fst).Nodup) (hp : es1.Perm es2) :
    sortEntries es1 = sortEntries es2 := by
  haveI := @lexKey_antisymm V
  have hnd2 : (es2.map Prod.fst).Nodup := (hp.map Prod.fst).nodup_iff.mp hnd
  have hs1 := List.pairwise_map.mp (sortEntries_ascending es1 hnd)
  have hs2 := List.pairwise_map.mp (sortEntries_ascending es2 hnd2)
  have hperm : (sortEntries es1).Perm (sortEntries es2) :=
    ((sortEntries_perm es1).trans hp).trans (sortEntries_perm es2).symm
  exact List.eq_of_perm_of_sorted hperm hs1 hs2

/-- C12: two enumerations of the same bag (the same entries, with distinct keys,
in any two orders) give the same result on every path. -/
theorem addExtraParamsTo_order_independent {V : Type} (fmtv : V → GoString)
    (path : GoString) (opts1 opts2 : List (GoString × V)) (h : BagOK opts1)
    (hp : opts1.Perm opts2) :
    addExtraParamsTo fmtv path opts1 = addExtraParamsTo fmtv path opts2 := by
  have h2 : BagOK opts2 := (hp.map Prod.fst).nodup_iff.mp h
  have hl : (leftover fmtv path opts1).Perm (leftover fmtv path opts2) := hp.filter _
  rw [addExtraParamsTo_eq fmtv path opts1 h, addExtraParamsTo_eq fmtv path opts2 h2,
    hl.length_eq,
    sortEntries_eq_of_perm _ _ (leftover_keys_nodup fmtv path opts1 h) hl]

theorem addExtraParamsTo_order_independent_witness :
    BagOK [(ascii "b", ascii "2"), (ascii "a", ascii "1"), (ascii "c", ascii "x")] ∧
    [(ascii "b", ascii "2"), (ascii "a", ascii "1"), (ascii "c", ascii "x")].Perm
      [(ascii "c", ascii "x"), (ascii "b", ascii "2"), (ascii "a", ascii "1")] ∧
    addExtraParamsTo id (ascii "/x")
        [(ascii "b", ascii "2"), (ascii "a", ascii "1"), (ascii "c", ascii "x")]
      = addExtraParamsTo id (ascii "/x")
        [(ascii "c", ascii "x"), (ascii "b", ascii "2"), (ascii "a", ascii "1")] :=
  ⟨by decide, by decide,
    addExtraParamsTo_order_independent id (ascii "/x")
      [(ascii "b", ascii "2"), (ascii "a", ascii "1"), (ascii "c", ascii "x")]
      [(ascii "c", ascii "x"), (ascii "b", ascii "2"), (ascii "a", ascii "1")]
      (by decide) (by decide)⟩

theorem infix_intercalate_of_mem (sep x : GoString) (xs : List GoString) (h : x ∈ xs) :
    x <:+: List.intercalate sep xs := by
  cases xs with
  | nil => cases h
  | cons y ys =>
    rw [intercalate_cons_eq]
    rcases List.mem_cons.mp h with h1 | h1
    · subst h1
      exact (List.prefix_append _ _).isInfix
    · have hm : sep ++ x ∈ ys.map (fun z => sep ++ z) := List.mem_map.mpr ⟨x, h1, rfl⟩
      have h2 : x <:+: sep ++ x := (List.suffix_append _ _).isInfix
      exact (h2.trans (List.infix_of_mem_flatten hm)).trans (List.suffix_append _ _).isInfix

theorem pairText_ne_nil {V : Type} (fmtv : V → GoString) (kv : GoString × V) :
    pairText fmtv kv ≠ [] := by
  intro h
  have hlen := congrArg List.length h
  have h1 : (ascii "=").length = 1 := by decide
  simp [pairText, h1] at hlen

theorem intercalate_pairs_ne_nil {V : Type} (fmtv : V → GoString) (es : List (GoString × V))
    (h : es ≠ []) : List.intercalate (ascii "&") (es.map (pairText fmtv)) ≠ [] := by
  cases es with
  | nil => exact absurd rfl h
  | cons e rest =>
    rw [List.map_cons, intercalate_cons_eq]
    intro hnil
    exact pairText_ne_nil fmtv e (List.append_eq_nil.mp hnil).1

theorem escapeByte_of_unreserved (c : Byte) (h : unreserved c = true) : escapeByte c = [c] := by
  have h32 : ¬ (c.val == 32) = true := by
    intro h1
    have hv : c.val = 32 := by simpa using h1
    have hc : c = 32 := Fin.ext hv
    rw [hc] at h
    exact absurd h (by decide)
  simp only [escapeByte, h32, h, if_true, if_false]
  rfl

theorem QueryEscape_of_unreserved (s : GoString) (h : ∀ c ∈ s, unreserved c = true) :
    QueryEscape s = s := by
  induction s with
  | nil => rfl
  | cons c s ih =>
    have hc := escapeByte_of_unreserved c (h c (List.mem_cons_self _ _))
    have hs := ih (fun d hd => h d (List.mem_cons_of_mem _ hd))
    unfold QueryEscape at hs ⊢
    rw [List.flatMap_cons, hc, hs]
    rfl

theorem path_infix_result {V : Type} (fmtv : V → GoString) (path : GoString)
    (opts : List (GoString × V)) (h : BagOK opts) :
    path <:+: addExtraParamsTo fmtv path opts := by
  rw [addExtraParamsTo_eq fmtv path opts h]
  split
  · exact List.infix_refl _
  · rw [List.append_assoc]
    exact (List.prefix_append _ _).isInfix

theorem value_infix_result {V : Type} (fmtv : V → GoString) (path : GoString)
    (opts : List (GoString × V)) (h : BagOK opts) (kv : GoString × V) (hkv : kv ∈ opts)
    (hq : QueryEscape (fmtv kv.2) = fmtv kv.2) :
    fmtv kv.2 <:+: addExtraParamsTo fmtv path opts := by
  by_cases hin : fmtv kv.2 <:+: path
  · exact hin.trans (path_infix_result fmtv path opts h)
  · have hm : kv ∈ leftover fmtv path opts := (mem_leftover fmtv path opts kv).mpr ⟨hkv, hin⟩
    have hlen : ¬ (leftover fmtv path opts).length = 0 := by
      intro h0
      rw [List.length_eq_zero] at h0
      rw [h0] at hm
      cases hm
    rw [addExtraParamsTo_eq fmtv path opts h, if_neg hlen]
    have hs : kv ∈ sortEntries (leftover fmtv path opts) := (sortEntries_perm _).mem_iff.mpr hm
    have hp : pairText fmtv kv ∈ (sortEntries (leftover fmtv path opts)).map (pairText fmtv) :=
      List.mem_map.mpr ⟨kv, hs, rfl⟩
    have h1 : fmtv kv.2 <:+: pairText fmtv kv := by
      unfold pairText
      rw [hq]
      exact (List.suffix_append _ _).isInfix
    exact (h1.trans (infix_intercalate_of_mem _ _ _ hp)).trans (List.suffix_append _ _).isInfix

/-- C13, amended: for a bag with distinct keys, applying `addExtraParamsTo` again
to its own output with the same bag returns that output exactly when every
printed value of the bag occurs in the output; this holds whenever every printed
value is made of unreserved bytes only (letters, digits, `-`, `_`, `.`, `~`), which
query escaping leaves as they are. -/
theorem addExtraParamsTo_reapplied {V : Type} (fmtv : V → GoString) (path : GoString)
    (opts : List (GoString × V)) (h : BagOK opts) :
    (addExtraParamsTo fmtv (addExtraParamsTo fmtv path opts) opts
        = addExtraParamsTo fmtv path opts ↔
      ∀ kv ∈ opts, fmtv kv.2 <:+: addExtraParamsTo fmtv path opts) ∧
    ((∀ kv ∈ opts, ∀ c ∈ fmtv kv.2, unreserved c = true) →
      addExtraParamsTo fmtv (addExtraParamsTo fmtv path opts) opts
        = addExtraParamsTo fmtv path opts) := by
  have hback : (∀ kv ∈ opts, fmtv kv.2 <:+: addExtraParamsTo fmtv path opts) →
      addExtraParamsTo fmtv (addExtraParamsTo fmtv path opts) opts
        = addExtraParamsTo fmtv path opts := by
    intro hall
    apply addExtraParamsTo_of_leftover_nil
    unfold leftover
    rw [List.filter_eq_nil_iff]
    intro kv hkv
    have := (Contains_iff (addExtraParamsTo fmtv path opts) (fmtv kv.2)).mpr (hall kv hkv)
    simp [this]
  refine ⟨⟨?_, hback⟩, ?_⟩
  · intro heq kv hkv
    by_contra hnot
    have hm : kv ∈ leftover fmtv (addExtraParamsTo fmtv path opts) opts :=
      (mem_leftover fmtv _ opts kv).mpr ⟨hkv, hnot⟩
    have hne : leftover fmtv (addExtraParamsTo fmtv path opts) opts ≠ [] := by
      intro h0; rw [h0] at hm; cases hm
    have hlen : ¬ (leftover fmtv (addExtraParamsTo fmtv path opts) opts).length = 0 := by
      intro h0; exact hne (List.length_eq_zero.mp h0)
    have hsne : sortEntries (leftover fmtv (addExtraParamsTo fmtv path opts) opts) ≠ [] := by
      intro h0
      have := (sortEntries_perm (leftover fmtv (addExtraParamsTo fmtv path opts) opts)).length_eq
      rw [h0] at this
      exact hlen this.symm
    rw [addExtraParamsTo_eq fmtv (addExtraParamsTo fmtv path opts) opts h, if_neg hlen,
      List.append_assoc] at heq
    have hnil := List.append_right_eq_self.mp heq
    exact intercalate_pairs_ne_nil fmtv _ hsne (List.append_eq_nil.mp hnil).2
  · intro hun
    apply hback
    intro kv hkv
    exact value_infix_result fmtv path opts h kv hkv
      (QueryEscape_of_unreserved _ (hun kv hkv))

theorem addExtraParamsTo_reapplied_witness :
    BagOK [(ascii "page", ascii "2"), (ascii "id", ascii "5")] ∧
    (∀ kv ∈ [(ascii "page", ascii "2"), (ascii "id", ascii "5")],
      ∀ c ∈ id kv.2, unreserved c = true) ∧
    addExtraParamsTo id (addExtraParamsTo id (ascii "/users/5")
        [(ascii "page", ascii "2"), (ascii "id", ascii "5")])
        [(ascii "page", ascii "2"), (ascii "id", ascii "5")]
      = addExtraParamsTo id (ascii "/users/5")
        [(ascii "page", ascii "2"), (ascii "id", ascii "5")] :=
  have hun : ∀ kv ∈ [(ascii "page", ascii "2"), (ascii "id", ascii "5")],
      ∀ c ∈ id kv.2, unreserved c = true := by
    intro kv hkv c hc
    simp only [List.mem_cons, List.mem_singleton, List.not_mem_nil, or_false] at hkv
    rcases hkv with rfl | rfl
    · have e : c = Fin.ofNat 50 := by revert hc; simp [ascii]
      rw [e]; decide
    · have e : c = Fin.ofNat 53 := by revert hc; simp [ascii]
      rw [e]; decide
  ⟨by decide, hun,
    (addExtraParamsTo_reapplied id (ascii "/users/5")
      [(ascii "page", ascii "2"), (ascii "id", ascii "5")] (by decide)).2 hun⟩

/-- C13 fails on a value that query escaping changes: on `/x` the bag `q="a b"`
gives `/x?q=a+b`, and applying it again gives `/x?q=a+b&q=a+b`. -/
theorem addExtraParamsTo_reapplied_appends_again :
    addExtraParamsTo id (ascii "/x") [(ascii "q", ascii "a b")] = ascii "/x?q=a+b" ∧
    addExtraParamsTo id (addExtraParamsTo id (ascii "/x") [(ascii "q", ascii "a b")])
        [(ascii "q", ascii "a b")] = ascii "/x?q=a+b&q=a+b" ∧
    addExtraParamsTo id (addExtraParamsTo id (ascii "/x") [(ascii "q", ascii "a b")])
        [(ascii "q", ascii "a b")]
      ≠ addExtraParamsTo id (ascii "/x") [(ascii "q", ascii "a b")] := by
  decide

/-! ## `ServeHTTP` serves a request once -/

/-- C16: every `ServeHTTP` call runs in one of three ways, and the world it
leaves is pinned in each. Handler succeeded: the world is the one the handler
left, after one context construction and one handler run. Handler failed, error
handler succeeded: the world is the one left by one run of the error handler
looked up for the resolved status, on the handler's world after one flash
persistence. Error handler failed as well: that world after one log entry, one
`WriteHeader(500)` and one `Write`. With every collaborator keeping its own
record in the world, the record is the list of calls issued (the lookups, which
only read, apart): it holds the handler exactly once, an error handler at most
once and exactly once when the handler fails, with one lookup per error-handler
call, and at most one `WriteHeader` and one `Write` of the dispatcher, both after
the error-handler call and only when that call failed. -/
theorem ServeHTTP_serves_once {W H : Type} (a : ServeEnv W H) (w : W) :
    ((∃ w1, a.handler (a.newContext w) = (w1, none) ∧
        ServeHTTP a w = (w1, [Call.newContext, Call.handler])) ∨
      (∃ w1 err w3, a.handler (a.newContext w) = (w1, some err) ∧
        a.run (a.Get (resolveStatus err)) (resolveStatus err) err (a.persist w1) = (w3, none) ∧
        ServeHTTP a w =
          (w3, [Call.newContext, Call.handler, Call.flashPersist,
            Call.errorHandlersGet (resolveStatus err),
            Call.errorHandler (a.Get (resolveStatus err)) (resolveStatus err) err])) ∨
      (∃ w1 err w3 e, a.handler (a.newContext w) = (w1, some err) ∧
        a.run (a.Get (resolveStatus err)) (resolveStatus err) err (a.persist w1)
          = (w3, some e) ∧
        ServeHTTP a w =
          (a.Write e.Error (a.WriteHeader 500 (a.loggerError e w3)),
            [Call.newContext, Call.handler, Call.flashPersist,
              Call.errorHandlersGet (resolveStatus err),
              Call.errorHandler (a.Get (resolveStatus err)) (resolveStatus err) err,
              Call.loggerError e, Call.WriteHeader 500, Call.Write e.Error]))) ∧
    (ServeHTTP (recording a) (w, [])).1 =
      ((ServeHTTP a w).1, (ServeHTTP a w).2.filter (fun c => !c.isGet)) ∧
    (ServeHTTP (recording a) (w, [])).1.2.countP Call.isHandler = 1 ∧
    (ServeHTTP (recording a) (w, [])).1.2.countP Call.isErrorHandler ≤ 1 ∧
    ((ServeHTTP (recording a) (w, [])).1.2.countP Call.isErrorHandler = 1 ↔
      (a.handler (a.newContext w)).2 ≠ none) ∧
    (ServeHTTP (recording a) (w, [])).1.2.countP Call.isWriteHeader ≤ 1 ∧
    (ServeHTTP (recording a) (w, [])).1.2.countP Call.isWrite ≤ 1 ∧
    (ServeHTTP (recording a) (w, [])).1.2.countP Call.isWrite
      = (ServeHTTP (recording a) (w, [])).1.2.countP Call.isWriteHeader ∧
    ((ServeHTTP (recording a) (w, [])).1.2.countP Call.isWriteHeader = 1 ↔
      ∃ w1 err w3 e, a.handler (a.newContext w) = (w1, some err) ∧
        a.run (a.Get (resolveStatus err)) (resolveStatus err) err (a.persist w1)
          = (w3, some e)) ∧
    (ServeHTTP a w).2.countP Call.isHandler = 1 ∧
    (ServeHTTP a w).2.countP Call.isErrorHandler ≤ 1 ∧
    (ServeHTTP a w).2.countP Call.isGet = (ServeHTTP a w).2.countP Call.isErrorHandler ∧
    (ServeHTTP a w).2.countP Call.isGet
      = (ServeHTTP (recording a) (w, [])).1.2.countP Call.isErrorHandler ∧
    (ServeHTTP a w).2.countP Call.isWriteHeader ≤ 1 ∧
    (ServeHTTP a w).2.countP Call.isWrite ≤ 1 := by
  cases hh : a.handler (a.newContext w) with
  | mk w1 r =>
    cases r with
    | none =>
      simp [ServeHTTP, recording, hh, List.countP_cons, Call.isHandler, Call.isErrorHandler,
        Call.isGet, Call.isWriteHeader, Call.isWrite]
    | some err =>
      cases hr : a.run (a.Get (resolveStatus err)) (resolveStatus err) err (a.persist w1) with
      | mk w3 r2 =>
        cases r2 with
        | none =>
          simp [ServeHTTP, recording, hh, hr, List.countP_cons, Call.isHandler,
            Call.isErrorHandler, Call.isGet, Call.isWriteHeader, Call.isWrite]
          exact ⟨w1, err, ⟨rfl, rfl⟩, w3, hr, rfl, rfl, rfl, rfl, rfl⟩
        | some e =>
          simp [ServeHTTP, recording, hh, hr, List.countP_cons, Call.isHandler,
            Call.isErrorHandler, Call.isGet, Call.isWriteHeader, Call.isWrite]
          exact ⟨⟨w1, err, ⟨rfl, rfl⟩, w3, e, hr, rfl, rfl, ⟨rfl, rfl, rfl⟩, rfl, rfl⟩,
            ⟨w1, err, ⟨rfl, rfl⟩, w3, e, hr⟩⟩

/-! ## `Name` and the registry -/

theorem findRoute_none (heap : Ptr → RouteInfo) (ri : Ptr) (l : List Ptr) (k : Nat) :
    findRoute heap ri l k = none ↔ ∀ p ∈ l, ¬ sameRoute heap ri p := by
  induction l generalizing k with
  | nil => simp [findRoute]
  | cons p rest ih =>
    by_cases hp : sameRoute heap ri p
    · rw [findRoute, if_pos hp]
      constructor
      · intro h; cases h
      · intro h; exact absurd hp (h p (List.mem_cons_self _ _))
    · rw [findRoute, if_neg hp, ih]
      constructor
      · intro h q hq
        rcases List.mem_cons.mp hq with h1 | h1
        · rw [h1]; exact hp
        · exact h q h1
      · intro h q hq
        exact h q (List.mem_cons_of_mem _ hq)

theorem findRoute_some (heap : Ptr → RouteInfo) (ri : Ptr) (l : List Ptr) (k i : Nat)
    (h : findRoute heap ri l k = some i) :
    ∃ pre p post, l = pre ++ p :: post ∧ i = k + pre.length ∧ sameRoute heap ri p ∧
      ∀ q ∈ pre, ¬ sameRoute heap ri q := by
  induction l generalizing k with
  | nil => simp [findRoute] at h
  | cons p rest ih =>
    by_cases hp : sameRoute heap ri p
    · rw [findRoute, if_pos hp] at h
      have hi : k = i := Option.some.inj h
      exact ⟨[], p, rest, rfl, by simp [hi], hp, by simp⟩
    · rw [findRoute, if_neg hp] at h
      have hrest : findRoute heap ri rest (k + 1) = some i := h
      obtain ⟨pre, q, post, hl, hi, hq, hpre⟩ := ih (k + 1) hrest
      refine ⟨p :: pre, q, post, by rw [hl]; rfl, by rw [hi, List.length_cons]; omega, hq, ?_⟩
      intro x hx
      rcases List.mem_cons.mp hx with hx | hx
      · rw [hx]; exact hp
      · exact hpre x hx

theorem set_at_split (pre post : List Ptr) (p x : Ptr) :
    (pre ++ p :: post).set pre.length x = pre ++ x :: post := by
  induction pre with
  | nil => rfl
  | cons y pre ih => simp [List.set, ih]

theorem Name_heap (ri : Ptr) (n : GoString) (a : App) :
    (Name ri n a).1.heap =
      Function.update a.heap ri { (a.heap ri) with PathName := pathNameAfter ri n a } := by
  unfold pathNameAfter Name
  cases findRoute a.heap ri a.routes 0 <;> simp

theorem Name_routes (ri : Ptr) (n : GoString) (a : App) :
    (Name ri n a).1.routes =
      match findRoute a.heap ri a.routes 0 with
      | some i => a.routes.set i ri
      | none => a.routes := by
  unfold Name
  cases findRoute a.heap ri a.routes 0 <;> simp

theorem Name_routes_split (ri : Ptr) (n : GoString) (a : App)
    (h : ∃ p ∈ a.routes, sameRoute a.heap ri p) :
    ∃ pre p post, a.routes = pre ++ p :: post ∧ sameRoute a.heap ri p ∧
      (∀ q ∈ pre, ¬ sameRoute a.heap ri q) ∧ (Name ri n a).1.routes = pre ++ ri :: post := by
  cases hf : findRoute a.heap ri a.routes 0 with
  | none =>
    obtain ⟨p, hp, hs⟩ := h
    exact absurd hs ((findRoute_none a.heap ri a.routes 0).mp hf p hp)
  | some i =>
    obtain ⟨pre, p, post, hl, hi, hp, hpre⟩ := findRoute_some a.heap ri a.routes 0 i hf
    refine ⟨pre, p, post, hl, hp, hpre, ?_⟩
    rw [Name_routes, hf]
    simp only
    rw [hi, Nat.zero_add, hl, set_at_split]

/-- C15: `Name(n)` on the descriptor at `ri` returns `ri` and changes, of that
descriptor, the `PathName` only (`Method`, `Path`, `Aliases`, `Handler` stay); no
other descriptor and no registration changes; the registry keeps its length; when
no entry has the `Path` and `Method` of the descriptor the registry is unchanged;
otherwise the first entry that has them is replaced by `ri` and every other slot
is unchanged. -/
theorem Name_registry_frame (ri : Ptr) (n : GoString) (a : App) :
    (Name ri n a).2 = ri ∧
    (Name ri n a).1.heap ri = { (a.heap ri) with PathName := pathNameAfter ri n a } ∧
    ((Name ri n a).1.heap ri).Method = (a.heap ri).Method ∧
    ((Name ri n a).1.heap ri).Path = (a.heap ri).Path ∧
    ((Name ri n a).1.heap ri).Aliases = (a.heap ri).Aliases ∧
    ((Name ri n a).1.heap ri).Handler = (a.heap ri).Handler ∧
    (∀ q, q ≠ ri → (Name ri n a).1.heap q = a.heap q) ∧
    (Name ri n a).1.router = a.router ∧
    (Name ri n a).1.routes.length = a.routes.length ∧
    ((∀ p ∈ a.routes, ¬ sameRoute a.heap ri p) → (Name ri n a).1.routes = a.routes) ∧
    ((∃ p ∈ a.routes, sameRoute a.heap ri p) →
      ∃ pre p post, a.routes = pre ++ p :: post ∧ sameRoute a.heap ri p ∧
        (∀ q ∈ pre, ¬ sameRoute a.heap ri q) ∧
        (Name ri n a).1.routes = pre ++ ri :: post) := by
  have hheap := Name_heap ri n a
  refine ⟨?_, ?_, ?_, ?_, ?_, ?_, ?_, ?_, ?_, ?_, Name_routes_split ri n a⟩
  · unfold Name; cases findRoute a.heap ri a.routes 0 <;> rfl
  · rw [hheap, Function.update_same]
  · rw [hheap, Function.update_same]
  · rw [hheap, Function.update_same]
  · rw [hheap, Function.update_same]
  · rw [hheap, Function.update_same]
  · intro q hq
    rw [hheap, Function.update_noteq hq]
  · unfold Name; cases findRoute a.heap ri a.routes 0 <;> rfl
  · rw [Name_routes]
    cases findRoute a.heap ri a.routes 0 <;> simp
  · intro hno
    rw [Name_routes, (findRoute_none a.heap ri a.routes 0).mpr hno]

theorem Name_routes_of_only (ri : Ptr) (n : GoString) (a : App) (hri : ri ∈ a.routes)
    (honly : ∀ q ∈ a.routes, sameRoute a.heap ri q → q = ri) :
    (Name ri n a).1.routes = a.routes := by
  obtain ⟨pre, p, post, hl, hp, _, hr⟩ := Name_routes_split ri n a ⟨ri, hri, rfl, rfl⟩
  have hpri : p = ri := honly p (by rw [hl]; simp) hp
  rw [hr, hl, hpri]

/-- C14, amended: in a registry whose descriptors have pairwise distinct
`PathName`s, after `Name(n)` on a descriptor of the registry that is its only
entry with that `Path` and `Method`, the `PathName`s are pairwise distinct exactly
when the name `Name` stored is not the `PathName` of another descriptor of the
registry. -/
theorem Name_names_distinct_iff (ri : Ptr) (n : GoString) (a : App)
    (hn : (registryNames a).Nodup) (hri : ri ∈ a.routes)
    (honly : ∀ q ∈ a.routes, sameRoute a.heap ri q → q = ri) :
    (registryNames (Name ri n a).1).Nodup ↔
      ∀ q ∈ a.routes, q ≠ ri → (a.heap q).PathName ≠ pathNameAfter ri n a := by
  have hroutes := Name_routes_of_only ri n a hri honly
  have hheap := Name_heap ri n a
  have hnd : a.routes.Nodup := List.Nodup.of_map _ hn
  have hinj := List.inj_on_of_nodup_map hn
  have hself : ((Name ri n a).1.heap ri).PathName = pathNameAfter ri n a := rfl
  have hother : ∀ q, q ≠ ri → ((Name ri n a).1.heap q).PathName = (a.heap q).PathName := by
    intro q hq
    rw [hheap, Function.update_noteq hq]
  unfold registryNames at hn ⊢
  rw [hroutes]
  constructor
  · intro hnew q hq hne heq
    have hinj2 := List.inj_on_of_nodup_map hnew
    have : q = ri := hinj2 hq hri (by rw [hother q hne, hself, heq])
    exact hne this
  · intro hfresh
    apply List.Nodup.map_on _ hnd
    intro x hx y hy hxy
    by_cases hxr : x = ri
    · by_cases hyr : y = ri
      · rw [hxr, hyr]
      · rw [hxr, hself, hother y hyr] at hxy
        exact absurd hxy.symm (hfresh y hy hyr)
    · by_cases hyr : y = ri
      · rw [hyr, hself, hother x hxr] at hxy
        exact absurd hxy (hfresh x hx hxr)
      · rw [hother x hxr, hother y hyr] at hxy
        exact hinj hx hy hxy

theorem Name_names_distinct_iff_witness :
    (registryNames twoRouteApp).Nodup ∧ 0 ∈ twoRouteApp.routes ∧
    (∀ q ∈ twoRouteApp.routes, sameRoute twoRouteApp.heap 0 q → q = 0) ∧
    ((registryNames (Name 0 (ascii "show") twoRouteApp).1).Nodup ↔
      ∀ q ∈ twoRouteApp.routes, q ≠ 0 →
        (twoRouteApp.heap q).PathName ≠ pathNameAfter 0 (ascii "show") twoRouteApp) :=
  ⟨by decide, by decide, by decide,
    Name_names_distinct_iff 0 (ascii "show") twoRouteApp (by decide) (by decide) (by decide)⟩

/-- C14 fails when the new name is already taken: in a registry holding
`widgetPath` and `userPath`, `Name("user")` on the first descriptor leaves two
descriptors named `userPath`. -/
theorem Name_creates_collision :
    (registryNames twoRouteApp).Nodup ∧ 0 ∈ twoRouteApp.routes ∧
    registryNames (Name 0 (ascii "user") twoRouteApp).1 = [ascii "userPath", ascii "userPath"] ∧
    ¬ (registryNames (Name 0 (ascii "user") twoRouteApp).1).Nodup := by
  decide

/-! ## Decoding the appended query string -/

theorem unhex_upperhex : ∀ n : Nat, n < 16 → unhex (upperhex n) = some n := by
  decide

theorem unreserved_not_special (c : Byte) (h : unreserved c = true) :
    c.val ≠ 37 ∧ c.val ≠ 43 ∧ c.val ≠ 38 ∧ c.val ≠ 61 := by
  simp only [unreserved, Bool.or_eq_true, Bool.and_eq_true, decide_eq_true_eq,
    beq_iff_eq] at h
  omega

theorem QueryUnescape_plain (c : Byte) (rest : GoString) (h37 : c.val ≠ 37)
    (h43 : c.val ≠ 43) :
    QueryUnescape (c :: rest) = (QueryUnescape rest).map (fun r => c :: r) := by
  rw [QueryUnescape.eq_def]
  simp only [if_neg h37, if_neg h43]

theorem QueryUnescape_plus (rest : GoString) :
    QueryUnescape ((43 : Byte) :: rest) = (QueryUnescape rest).map (fun r => (32 : Byte) :: r) := by
  rw [QueryUnescape.eq_def]
  have h37 : ¬ ((43 : Byte).val = 37) := by decide
  have h43 : (43 : Byte).val = 43 := by decide
  simp only [if_neg h37, if_pos h43]

theorem QueryUnescape_percent (h l : Byte) (hi lo : Nat) (rest : GoString)
    (hh : unhex h = some hi) (hl : unhex l = some lo) :
    QueryUnescape ((37 : Byte) :: h :: l :: rest)
      = (QueryUnescape rest).map (fun r => (Fin.ofNat (16 * hi + lo) : Byte) :: r) := by
  rw [QueryUnescape.eq_def]
  have h37 : (37 : Byte).val = 37 := by decide
  simp only [if_pos h37, hh, hl]

theorem QueryUnescape_escapeByte (c : Byte) (rest : GoString) :
    QueryUnescape (escapeByte c ++ rest) = (QueryUnescape rest).map (fun r => c :: r) := by
  unfold escapeByte
  by_cases h32 : (c.val == 32) = true
  · have hv : c.val = 32 := by simpa using h32
    have hc : c = 32 := Fin.ext hv
    rw [if_pos h32, hc]
    exact QueryUnescape_plus rest
  · rw [if_neg h32]
    by_cases hu : unreserved c = true
    · rw [if_pos hu]
      obtain ⟨h37, h43, _, _⟩ := unreserved_not_special c hu
      exact QueryUnescape_plain c rest h37 h43
    · rw [if_neg hu]
      have hhi : c.val / 16 < 16 := Nat.div_lt_of_lt_mul (by have := c.isLt; omega)
      have hlo : c.val % 16 < 16 := Nat.mod_lt _ (by decide)
      have hc : (Fin.ofNat (16 * (c.val / 16) + c.val % 16) : Byte) = c := by
        apply Fin.ext
        show (16 * (c.val / 16) + c.val % 16) % 256 = c.val
        have := c.isLt
        omega
      have key := QueryUnescape_percent _ _ _ _ rest (unhex_upperhex _ hhi)
        (unhex_upperhex _ hlo)
      rw [hc] at key
      exact key

theorem QueryUnescape_QueryEscape (s : GoString) : QueryUnescape (QueryEscape s) = some s := by
  induction s with
  | nil => rfl
  | cons c s ih =>
    have hcons : QueryEscape (c :: s) = escapeByte c ++ QueryEscape s := by
      unfold QueryEscape; rw [List.flatMap_cons]
    rw [hcons, QueryUnescape_escapeByte, ih]
    rfl

theorem escapeByte_not_mem (t c : Byte) (h1 : unreserved t = false) (h2 : t ≠ 43)
    (h3 : t ≠ 37) (h4 : ∀ n : Nat, n < 16 → upperhex n ≠ t) : t ∉ escapeByte c := by
  unfold escapeByte
  split
  · intro h
    exact h2 (List.mem_singleton.mp h)
  · split
    · rename_i hu
      intro h
      rw [List.mem_singleton] at h
      subst h
      rw [h1] at hu
      exact absurd hu (by decide)
    · intro h
      simp only [List.mem_cons, List.mem_singleton, List.not_mem_nil, or_false] at h
      rcases h with h | h | h
      · exact h3 h
      · exact h4 _ (Nat.div_lt_of_lt_mul (by have := c.isLt; omega)) h.symm
      · exact h4 _ (Nat.mod_lt _ (by decide)) h.symm

theorem QueryEscape_no_amp (s : GoString) : (38 : Byte) ∉ QueryEscape s := by
  unfold QueryEscape
  intro h
  rcases List.mem_flatMap.mp h with ⟨c, _, hc⟩
  exact escapeByte_not_mem 38 c (by decide) (by decide) (by decide) (by decide) hc

theorem QueryEscape_no_eq (s : GoString) : (61 : Byte) ∉ QueryEscape s := by
  unfold QueryEscape
  intro h
  rcases List.mem_flatMap.mp h with ⟨c, _, hc⟩
  exact escapeByte_not_mem 61 c (by decide) (by decide) (by decide) (by decide) hc

theorem cutFirst_append (sep : Byte) (a b : GoString) (h : sep ∉ a) :
    cutFirst sep (a ++ sep :: b) = (a, b) := by
  induction a with
  | nil => simp [cutFirst]
  | cons c a ih =>
    have hc : c ≠ sep := fun e => h (by rw [e]; exact List.mem_cons_self _ _)
    have ha : sep ∉ a := fun m => h (List.mem_cons_of_mem _ m)
    show cutFirst sep (c :: (a ++ sep :: b)) = _
    rw [cutFirst, if_neg hc, ih ha]

theorem splitOn_single (sep : Byte) (a : GoString) (h : sep ∉ a) : splitOn sep a = [a] := by
  induction a with
  | nil => rfl
  | cons c a ih =>
    have hc : c ≠ sep := fun e => h (by rw [e]; exact List.mem_cons_self _ _)
    have ha : sep ∉ a := fun m => h (List.mem_cons_of_mem _ m)
    rw [splitOn, if_neg hc, ih ha]

theorem splitOn_append (sep : Byte) (a b : GoString) (h : sep ∉ a) :
    splitOn sep (a ++ sep :: b) = a :: splitOn sep b := by
  induction a with
  | nil => simp [splitOn]
  | cons c a ih =>
    have hc : c ≠ sep := fun e => h (by rw [e]; exact List.mem_cons_self _ _)
    have ha : sep ∉ a := fun m => h (List.mem_cons_of_mem _ m)
    show splitOn sep (c :: (a ++ sep :: b)) = _
    rw [splitOn, if_neg hc, ih ha]

theorem splitOn_intercalate (sep : Byte) (x : GoString) (xs : List GoString)
    (h : ∀ y ∈ x :: xs, sep ∉ y) :
    splitOn sep (List.intercalate [sep] (x :: xs)) = x :: xs := by
  induction xs generalizing x with
  | nil =>
    rw [intercalate_cons_eq]
    simp only [List.map_nil, List.flatten_nil, List.append_nil]
    exact splitOn_single sep x (h x (List.mem_cons_self _ _))
  | cons y ys ih =>
    have hx : sep ∉ x := h x (List.mem_cons_self _ _)
    have hrest : ∀ z ∈ y :: ys, sep ∉ z := fun z hz => h z (List.mem_cons_of_mem _ hz)
    have e : List.intercalate [sep] (x :: y :: ys)
        = x ++ sep :: List.intercalate [sep] (y :: ys) := by
      rw [intercalate_cons_eq, intercalate_cons_eq]
      simp only [List.map_cons, List.flatten_cons, List.singleton_append, List.cons_append,
        List.nil_append, List.append_assoc]
    rw [e, splitOn_append sep _ _ hx, ih y hrest]

theorem pairText_no_amp {V : Type} (fmtv : V → GoString) (kv : GoString × V) :
    (38 : Byte) ∉ pairText fmtv kv := by
  unfold pairText
  intro h
  rcases List.mem_append.mp h with h | h
  · rcases List.mem_append.mp h with h | h
    · exact QueryEscape_no_amp _ h
    · revert h; decide
  · exact QueryEscape_no_amp _ h

theorem decodePair_pairText {V : Type} (fmtv : V → GoString) (kv : GoString × V) :
    decodePair (pairText fmtv kv) = some (kv.1, fmtv kv.2) := by
  have e : pairText fmtv kv = QueryEscape kv.1 ++ (61 : Byte) :: QueryEscape (fmtv kv.2) := by
    unfold pairText
    rw [List.append_assoc]
    rfl
  unfold decodePair
  rw [e, cutFirst_append 61 _ _ (QueryEscape_no_eq _)]
  simp only [QueryUnescape_QueryEscape]

theorem mapM_decodePair {V : Type} (fmtv : V → GoString) (es : List (GoString × V)) :
    (es.map (pairText fmtv)).mapM decodePair
      = some (es.map (fun kv => (kv.1, fmtv kv.2))) := by
  induction es with
  | nil => rfl
  | cons kv es ih =>
    rw [List.map_cons, List.mapM_cons, decodePair_pairText, ih]
    rfl

theorem decodeQuery_pairs {V : Type} (fmtv : V → GoString) (es : List (GoString × V))
    (hne : es ≠ []) :
    decodeQuery (List.intercalate (ascii "&") (es.map (pairText fmtv)))
      = some (es.map (fun kv => (kv.1, fmtv kv.2))) := by
  cases es with
  | nil => exact absurd rfl hne
  | cons kv es =>
    have hsep : ascii "&" = [(38 : Byte)] := by decide
    unfold decodeQuery
    rw [hsep, List.map_cons, splitOn_intercalate 38 _ _ ?_, ← List.map_cons, mapM_decodePair]
    intro y hy
    rw [← List.map_cons] at hy
    obtain ⟨e, _, rfl⟩ := List.mem_map.mp hy
    exact pairText_no_amp fmtv e

/-- C18: for a bag with distinct keys and a path containing no `?`, the text
appended after the `?` decodes back to the leftover parameters. There is a list
of entries, a rearrangement of the leftover entries with strictly ascending
keys, such that: when it is empty the path is returned as it is; otherwise the
result is the path, a `?` and a text which, split on `&`, each piece split on
its first `=` and both halves query-unescaped, gives exactly the (key,
stringified value) pairs of that list, in that order. -/
theorem addExtraParamsTo_query_decodes {V : Type} (fmtv : V → GoString) (path : GoString)
    (opts : List (GoString × V)) (h : BagOK opts) (hq : ¬ (ascii "?" <:+: path)) :
    ∃ es : List (GoString × V),
      es.Perm (leftover fmtv path opts) ∧
      (es.map Prod.fst).Pairwise (List.Lex (· < ·)) ∧
      (es = [] → addExtraParamsTo fmtv path opts = path) ∧
      (es ≠ [] → ∃ text : GoString,
        addExtraParamsTo fmtv path opts = path ++ ascii "?" ++ text ∧
        decodeQuery text = some (es.map (fun kv => (kv.1, fmtv kv.2)))) := by
  refine ⟨sortEntries (leftover fmtv path opts), sortEntries_perm _,
    sortEntries_ascending _ (leftover_keys_nodup fmtv path opts h), ?_, ?_⟩
  · intro he
    have hlen : (leftover fmtv path opts).length = 0 := by
      rw [← (sortEntries_perm (leftover fmtv path opts)).length_eq, he]
      rfl
    rw [addExtraParamsTo_eq fmtv path opts h, if_pos hlen]
  · intro hne
    have hlen : ¬ (leftover fmtv path opts).length = 0 := by
      intro h0
      apply hne
      have h1 : (sortEntries (leftover fmtv path opts)).length = 0 := by
        rw [(sortEntries_perm (leftover fmtv path opts)).length_eq, h0]
      exact List.length_eq_zero.mp h1
    refine ⟨List.intercalate (ascii "&")
      ((sortEntries (leftover fmtv path opts)).map (pairText fmtv)), ?_, ?_⟩
    · rw [addExtraParamsTo_eq fmtv path opts h, if_neg hlen, querySep_without_qmark hq]
    · exact decodeQuery_pairs fmtv _ hne

/-- C18 on a sample: keys and values holding `&`, `=`, `?`, `%`, `+` and a space
are escaped in the appended text and come back unchanged, as two pairs. -/
theorem addExtraParamsTo_query_decodes_witness :
    BagOK [(ascii "c=d", Value.str (ascii "x?y%z+w")), (ascii "a&b", Value.str (ascii "1 2"))] ∧
    ¬ (ascii "?" <:+: ascii "/p") ∧
    (∃ es : List (GoString × Value),
      es.Perm (leftover Value.format (ascii "/p")
        [(ascii "c=d", Value.str (ascii "x?y%z+w")), (ascii "a&b", Value.str (ascii "1 2"))]) ∧
      (es.map Prod.fst).Pairwise (List.Lex (· < ·)) ∧
      (es = [] → addExtraParamsTo Value.format (ascii "/p")
        [(ascii "c=d", Value.str (ascii "x?y%z+w")), (ascii "a&b", Value.str (ascii "1 2"))]
          = ascii "/p") ∧
      (es ≠ [] → ∃ text : GoString,
        addExtraParamsTo Value.format (ascii "/p")
          [(ascii "c=d", Value.str (ascii "x?y%z+w")), (ascii "a&b", Value.str (ascii "1 2"))]
            = ascii "/p" ++ ascii "?" ++ text ∧
        decodeQuery text = some (es.map (fun kv => (kv.1, Value.format kv.2))))) ∧
    addExtraParamsTo Value.format (ascii "/p")
      [(ascii "c=d", Value.str (ascii "x?y%z+w")), (ascii "a&b", Value.str (ascii "1 2"))]
        = ascii "/p?a%26b=1+2&c%3Dd=x%3Fy%25z%2Bw" ∧
    decodeQuery (ascii "a%26b=1+2&c%3Dd=x%3Fy%25z%2Bw")
      = some [(ascii "a&b", ascii "1 2"), (ascii "c=d", ascii "x?y%z+w")] :=
  ⟨by decide, by decide,
    addExtraParamsTo_query_decodes Value.format (ascii "/p")
      [(ascii "c=d", Value.str (ascii "x?y%z+w")), (ascii "a&b", Value.str (ascii "1 2"))]
      (by decide) (by decide),
    by decide, by decide⟩

end Buffalo
